import Mathlib

/-!
Checkers engine (`main.c`): bitboard model, move validation and application

A shallow embedding of the C program.  `Bitboard` (`unsigned long long`) is a
natural number below `2 ^ 64`; C `int` values are integers, and every `int`
operation whose mathematical result leaves the `int` range, as well as every
shift by an amount outside `0 .. 63`, is undefined behaviour in C and yields
`none` here.  Functions that mutate through a pointer return the new value.
-/

namespace Checkers

/-- The C type `unsigned long long`. -/
abbrev Bitboard := Nat

/-- The C struct `Player`. -/
structure Player where
  men : Bitboard
  kings : Bitboard
deriving DecidableEq, Repr

/-- The C struct `Game`; `turn` is `0` for Red, non-zero for Black. -/
structure Game where
  red : Player
  black : Player
  turn : Int
deriving DecidableEq, Repr

/-- Smallest value of a C `int`. -/
def INT_MIN : Int := -2147483648

/-- Largest value of a C `int`. -/
def INT_MAX : Int := 2147483647

/-- Result of an `int` operation: defined only when it fits in an `int`. -/
def int_chk (x : Int) : Option Int :=
  if INT_MIN ≤ x ∧ x ≤ INT_MAX then some x else none

/-- The C library function `abs`; `abs(INT_MIN)` is undefined. -/
def c_abs (x : Int) : Option Int :=
  if x = INT_MIN then none else some (if x < 0 then -x else x)

/-- Bitwise complement of a 64-bit value. -/
def bnot64 (x : Nat) : Nat := 2 ^ 64 - 1 - x

/-- Function `get_bit`: `1ULL << (row * 8 + col)`. -/
def get_bit (row col : Int) : Option Bitboard :=
  (int_chk (row * 8)).bind fun p =>
  (int_chk (p + col)).bind fun s =>
  if 0 ≤ s ∧ s < 64 then some ((1 <<< s.toNat) % 2 ^ 64) else none

/-- Function `set_bit`: `*board |= get_bit(row, col)`. -/
def set_bit (board : Bitboard) (row col : Int) : Option Bitboard :=
  (get_bit row col).bind fun b => some (board ||| b)

/-- Function `clear_bit`: `*board &= ~get_bit(row, col)`. -/
def clear_bit (board : Bitboard) (row col : Int) : Option Bitboard :=
  (get_bit row col).bind fun b => some (board &&& bnot64 b)

/-- Function `is_bit_set`: `(board & get_bit(row, col)) != 0`, as a C truth value. -/
def is_bit_set (board : Bitboard) (row col : Int) : Option Int :=
  (get_bit row col).bind fun b => some (if board &&& b ≠ 0 then 1 else 0)

/-- Body of the inner loop of `init_game` for Black (`r`, `c` fixed). -/
def init_black_cell (r : Int) (game : Game) (c : Int) : Option Game :=
  (int_chk (r + c)).bind fun s =>
  if Int.tmod s 2 ≠ 0 then
    (set_bit game.black.men r c).bind fun b =>
    some { game with black := { game.black with men := b } }
  else some game

/-- Body of the inner loop of `init_game` for Red (`r`, `c` fixed). -/
def init_red_cell (r : Int) (game : Game) (c : Int) : Option Game :=
  (int_chk (r + c)).bind fun s =>
  if Int.tmod s 2 ≠ 0 then
    (set_bit game.red.men r c).bind fun b =>
    some { game with red := { game.red with men := b } }
  else some game

/-- Function `init_game`: the previous contents of `*game` are overwritten. -/
def init_game (_game : Game) : Option Game :=
  let g0 : Game := { red := { men := 0, kings := 0 }, black := { men := 0, kings := 0 }, turn := 0 }
  ([0, 1, 2] : List Int).foldlM
      (fun g r => ([0, 1, 2, 3, 4, 5, 6, 7] : List Int).foldlM (init_black_cell r) g) g0
    |>.bind fun g1 =>
  ([5, 6, 7] : List Int).foldlM
      (fun g r => ([0, 1, 2, 3, 4, 5, 6, 7] : List Int).foldlM (init_red_cell r) g) g1

/-- Red half of the body of the loop of `crown_king` (column `c`). -/
def crown_red (game : Game) (c : Int) : Option Game :=
  (is_bit_set game.red.men 0 c).bind fun t =>
  if t ≠ 0 then
    (clear_bit game.red.men 0 c).bind fun m =>
    (set_bit game.red.kings 0 c).bind fun k =>
    some { game with red := { men := m, kings := k } }
  else some game

/-- Black half of the body of the loop of `crown_king` (column `c`). -/
def crown_black (game : Game) (c : Int) : Option Game :=
  (is_bit_set game.black.men 7 c).bind fun t =>
  if t ≠ 0 then
    (clear_bit game.black.men 7 c).bind fun m =>
    (set_bit game.black.kings 7 c).bind fun k =>
    some { game with black := { men := m, kings := k } }
  else some game

/-- Body of the loop of `crown_king` (column `c`). -/
def crown_col (game : Game) (c : Int) : Option Game :=
  (crown_red game c).bind fun g => crown_black g c

/-- Function `crown_king`: the loop `for (c = 0; c < 8; c++)`. -/
def crown_king (game : Game) : Option Game :=
  ([0, 1, 2, 3, 4, 5, 6, 7] : List Int).foldlM crown_col game

/-- Function `is_occupied`: the union of the four bitboards tested at one square. -/
def is_occupied (game : Game) (row col : Int) : Option Int :=
  is_bit_set (game.red.men ||| game.red.kings ||| game.black.men ||| game.black.kings) row col

/-- The pointer `player`: `game->turn ? &game->black : &game->red`. -/
def cur_player (game : Game) : Player := if game.turn ≠ 0 then game.black else game.red

/-- The pointer `enemy`: `game->turn ? &game->red : &game->black`. -/
def cur_enemy (game : Game) : Player := if game.turn ≠ 0 then game.red else game.black

/-- Write back through the `player` and `enemy` pointers. -/
def put_players (game : Game) (player enemy : Player) : Game :=
  if game.turn ≠ 0 then { game with red := enemy, black := player }
  else { game with red := player, black := enemy }

/-- Function `valid_move`: `0` illegal, `1` step, `2` jump. -/
def valid_move (game : Game) (r1 c1 r2 c2 : Int) : Option Int :=
  if r2 < 0 ∨ r2 > 7 ∨ c2 < 0 ∨ c2 > 7 then some 0 else
  (is_occupied game r2 c2).bind fun occ =>
  if occ ≠ 0 then some 0 else
  let player := cur_player game
  let enemy := cur_enemy game
  (int_chk (r2 - r1)).bind fun dr =>
  (int_chk (c2 - c1)).bind fun dc =>
  let dir0 : Int := if game.turn ≠ 0 then 1 else -1
  (is_bit_set player.kings r1 c1).bind fun k =>
  let dir : Int := if k ≠ 0 then dr else dir0
  -- `abs(dr) == 1 && abs(dc) == 1 && dr == dir`, left to right
  (c_abs dr).bind fun adr =>
  (if adr = 1 then (c_abs dc).bind fun adc => some (decide (adc = 1 ∧ dr = dir))
    else some false).bind fun step =>
  if step then some 1 else
  -- `abs(dr) == 2 && abs(dc) == 2`
  (if adr = 2 then (c_abs dc).bind fun adc => some (decide (adc = 2))
    else some false).bind fun jump =>
  if jump then
    (int_chk (r1 + r2)).bind fun sr =>
    (int_chk (c1 + c2)).bind fun sc =>
    let mr := Int.tdiv sr 2
    let mc := Int.tdiv sc 2
    (is_bit_set (enemy.men ||| enemy.kings) mr mc).bind fun e =>
    if e ≠ 0 then some 2 else some 0
  else some 0

/-- Lines 120 to 138 of `move_piece`: the piece is taken from the old square,
put on the new one, and the captured piece is removed when the move is a jump. -/
def move_piece_relocate (game : Game) (move_type : Int) (r1 c1 r2 c2 : Int) : Option Game :=
  let player := cur_player game
  let enemy := cur_enemy game
  (is_bit_set player.kings r1 c1).bind fun king =>
  (clear_bit player.men r1 c1).bind fun m1 =>
  (clear_bit player.kings r1 c1).bind fun k1 =>
  (if king ≠ 0 then (set_bit k1 r2 c2).bind fun k2 => some ({ men := m1, kings := k2 } : Player)
    else (set_bit m1 r2 c2).bind fun m2 => some ({ men := m2, kings := k1 } : Player)).bind
  fun player2 =>
  (if move_type = 2 then
    (int_chk (r1 + r2)).bind fun sr =>
    (int_chk (c1 + c2)).bind fun sc =>
    let mr := Int.tdiv sr 2
    let mc := Int.tdiv sc 2
    (clear_bit enemy.men mr mc).bind fun em =>
    (clear_bit enemy.kings mr mc).bind fun ek =>
    some ({ men := em, kings := ek } : Player)
   else some enemy).bind fun enemy2 =>
  some (put_players game player2 enemy2)

/-- Function `move_piece`: returns the C result (`0` or `1`) and the new state. -/
def move_piece (game : Game) (r1 c1 r2 c2 : Int) : Option (Int × Game) :=
  (valid_move game r1 c1 r2 c2).bind fun move_type =>
  if move_type = 0 then some (0, game) else
  (move_piece_relocate game move_type r1 c1 r2 c2).bind fun g1 =>
  (crown_king g1).bind fun g2 =>
  some (1, { g2 with turn := if g2.turn = 0 then 1 else 0 })

/-- Function `has_pieces`: `(p->men | p->kings) != 0`. -/
def has_pieces (p : Player) : Int := if p.men ||| p.kings ≠ 0 then 1 else 0

/-- The standard opening position: Black men on the squares of rows 0 to 2 with
`r + c` odd, Red men on those of rows 5 to 7, Red to move. -/
def initial : Game :=
  { red := { men := 0x55AA550000000000, kings := 0 },
    black := { men := 0xAA55AA, kings := 0 }, turn := 0 }

/-- Bit index of square `(r, c)`: `r * 8 + c`. -/
def sq (r c : Int) : Nat := (r * 8 + c).toNat

/-- Square `(r, c)` is on the 8x8 board. -/
def onBoard (r c : Int) : Prop := 0 ≤ r ∧ r ≤ 7 ∧ 0 ≤ c ∧ c ≤ 7

instance (r c : Int) : Decidable (onBoard r c) := by unfold onBoard; infer_instance

/-- Forward row direction of the side to move: `-1` for Red, `+1` for Black. -/
def forward (g : Game) : Int := if g.turn ≠ 0 then 1 else -1

/-- Bit `i` is set in one of the four bitboards. -/
def occupiedAt (g : Game) (i : Nat) : Bool :=
  g.red.men.testBit i || g.red.kings.testBit i || g.black.men.testBit i || g.black.kings.testBit i

/-- Absolute value of an integer. -/
def iabs (x : Int) : Int := if x < 0 then -x else x

/-- The rule list of the validator as the specification words it. -/
def valid_move_spec (g : Game) (r1 c1 r2 c2 : Int) : Int :=
  if r2 < 0 ∨ 7 < r2 ∨ c2 < 0 ∨ 7 < c2 then 0
  else if occupiedAt g (sq r2 c2) then 0
  else
    let dr := r2 - r1
    let dc := c2 - c1
    if iabs dr = 1 ∧ iabs dc = 1 ∧
        ((cur_player g).kings.testBit (sq r1 c1) = true ∨ dr = forward g) then 1
    else if iabs dr = 2 ∧ iabs dc = 2 ∧
        ((cur_enemy g).men.testBit (sq ((r1 + r2) / 2) ((c1 + c2) / 2)) = true ∨
         (cur_enemy g).kings.testBit (sq ((r1 + r2) / 2) ((c1 + c2) / 2)) = true) then 2
    else 0

/-- What the promotion pass over the columns in `cs` does to the bits of a state. -/
def crownedOn (cs : List Nat) (g g' : Game) : Prop :=
  g'.turn = g.turn ∧ ∀ i, i < 64 →
    (g'.red.men.testBit i = true ↔ g.red.men.testBit i = true ∧ i ∉ cs) ∧
    (g'.red.kings.testBit i = true ↔
      g.red.kings.testBit i = true ∨ (g.red.men.testBit i = true ∧ i ∈ cs)) ∧
    (g'.black.men.testBit i = true ↔ g.black.men.testBit i = true ∧ ¬ ∃ c ∈ cs, i = 56 + c) ∧
    (g'.black.kings.testBit i = true ↔
      g.black.kings.testBit i = true ∨ (g.black.men.testBit i = true ∧ ∃ c ∈ cs, i = 56 + c))

/-- Bit-level description of `crown_king`: on row 0 Red men become Red kings, on
row 7 Black men become Black kings, nothing else changes. -/
def crowned (g g' : Game) : Prop :=
  g'.turn = g.turn ∧ ∀ i, i < 64 →
    (g'.red.men.testBit i = true ↔ g.red.men.testBit i = true ∧ 8 ≤ i) ∧
    (g'.red.kings.testBit i = true ↔
      g.red.kings.testBit i = true ∨ (g.red.men.testBit i = true ∧ i < 8)) ∧
    (g'.black.men.testBit i = true ↔ g.black.men.testBit i = true ∧ i < 56) ∧
    (g'.black.kings.testBit i = true ↔
      g.black.kings.testBit i = true ∨ (g.black.men.testBit i = true ∧ 56 ≤ i))

/-- Bit-level description of lines 120 to 138 of `move_piece`, with origin bit `o`,
destination bit `d` and, for a jump, captured bit `m`. -/
def relocated (g : Game) (jump : Prop) (o d m : Nat) (g1 : Game) : Prop :=
  g1.turn = g.turn ∧ ∀ i, i < 64 →
    ((cur_player g1).men.testBit i = true ↔
      ((cur_player g).men.testBit i = true ∧ i ≠ o) ∨
      ((cur_player g).kings.testBit o = false ∧ i = d)) ∧
    ((cur_player g1).kings.testBit i = true ↔
      ((cur_player g).kings.testBit i = true ∧ i ≠ o) ∨
      ((cur_player g).kings.testBit o = true ∧ i = d)) ∧
    ((cur_enemy g1).men.testBit i = true ↔
      (cur_enemy g).men.testBit i = true ∧ ¬ (jump ∧ i = m)) ∧
    ((cur_enemy g1).kings.testBit i = true ↔
      (cur_enemy g).kings.testBit i = true ∧ ¬ (jump ∧ i = m))

/-- At most one of the four bitboards has bit `i` set. -/
def disjointAt (g : Game) (i : Nat) : Prop :=
  (g.red.men.testBit i).toNat + (g.red.kings.testBit i).toNat +
    (g.black.men.testBit i).toNat + (g.black.kings.testBit i).toNat ≤ 1

/-- Disjointness invariant: every square holds at most one piece category. -/
def disjoint (g : Game) : Prop :=
  ∀ r, r < 8 → ∀ c, c < 8 → disjointAt g (r * 8 + c)

instance (g : Game) (i : Nat) : Decidable (disjointAt g i) := by
  unfold disjointAt; infer_instance

instance (g : Game) : Decidable (disjoint g) := by
  unfold disjoint; infer_instance

/-- Squares occupied by a side: `men | kings`. -/
def occupancy (p : Player) : Bitboard := p.men ||| p.kings

/-- Number of squares of the 8x8 board whose bit is set in `b`. -/
def pieceCount (b : Bitboard) : Nat := ((Finset.range 64).filter (fun i => b.testBit i = true)).card

/-- The side that is the enemy of the side to move in `g`, read in the state `g'`. -/
def enemy_in (g g' : Game) : Player := if g.turn ≠ 0 then g'.red else g'.black

/-- The side to move in `g`, read in the state `g'`. -/
def player_in (g g' : Game) : Player := if g.turn ≠ 0 then g'.black else g'.red

/-- A lone Red man at (1,2), one step from row 0, Red to move. -/
def promo_state : Game :=
  { red := { men := 2 ^ 10, kings := 0 }, black := { men := 0, kings := 0 }, turn := 0 }

/-- A lone Red man at (3,3) beside a lone Black man at (2,2), Red to move. -/
def jump_state : Game :=
  { red := { men := 2 ^ 27, kings := 0 }, black := { men := 2 ^ 18, kings := 0 }, turn := 0 }

/-- Red men at (0,1) and (5,0) and nothing else, Red to move. -/
def back_row_state : Game :=
  { red := { men := 2 ^ 1 ||| 2 ^ 40, kings := 0 }, black := { men := 0, kings := 0 }, turn := 0 }

/-- A Red man at (3,3) and a Black man behind it at (4,4), Red to move. -/
def backward_state : Game :=
  { red := { men := 2 ^ 27, kings := 0 }, black := { men := 2 ^ 36, kings := 0 }, turn := 0 }

/-- The side announced as winner by the main loop. -/
inductive Winner where
  | red
  | black
deriving DecidableEq, Repr

/-- The win check at the top of the loop of `main`: Black wins when Red has no
pieces, else Red wins when Black has none, else the game goes on. -/
def win_check (game : Game) : Option Winner :=
  if has_pieces game.red = 0 then some Winner.black
  else if has_pieces game.black = 0 then some Winner.red
  else none

/-- The state of the jump scenario after the capture: a lone Red man at (1,1). -/
def jump_result : Game :=
  { red := { men := 2 ^ 9, kings := 0 }, black := { men := 0, kings := 0 }, turn := 1 }

/-- The calls of `move_piece` made by the loop of `main` for a list of moves read
from the input, one after the other. -/
def play (game : Game) : List (Int × Int × Int × Int) → Option Game
  | [] => some game
  | (r1, c1, r2, c2) :: rest =>
    (move_piece game r1 c1 r2 c2).bind fun res => play res.2 rest

/-- Every piece of either side stands on a playable square, one with `r + c` odd. -/
def darkOnly (g : Game) : Prop :=
  ∀ r, r < 8 → ∀ c, c < 8 → occupiedAt g (r * 8 + c) = true → (r + c) % 2 = 1

instance (g : Game) : Decidable (darkOnly g) := by
  unfold darkOnly; infer_instance

/-- Promotion of the moved piece only, as the specification words the replacement
of the scan: if the relocated piece is a man of the mover now on the mover's
promotion row (row 0 for Red, row 7 for Black), the destination square alone is
converted from man to king. -/
def promote_moved (game : Game) (r2 c2 : Int) : Option Game :=
  let player := cur_player game
  (is_bit_set player.men r2 c2).bind fun m =>
  if m ≠ 0 ∧ r2 = (if game.turn ≠ 0 then 7 else 0) then
    (clear_bit player.men r2 c2).bind fun m' =>
    (set_bit player.kings r2 c2).bind fun k' =>
    some (put_players game { men := m', kings := k' } (cur_enemy game))
  else some game

/-- The steps of `move_piece` with the full-row scan replaced by `promote_moved`. -/
def move_piece_single (game : Game) (r1 c1 r2 c2 : Int) : Option (Int × Game) :=
  (valid_move game r1 c1 r2 c2).bind fun move_type =>
  if move_type = 0 then some (0, game) else
  (move_piece_relocate game move_type r1 c1 r2 c2).bind fun g1 =>
  (promote_moved g1 r2 c2).bind fun g2 =>
  some (1, { g2 with turn := if g2.turn = 0 then 1 else 0 })

/-! ## Lemmas and theorems -/

theorem int_chk_of_bounds {x : Int} (h1 : -2147483648 ≤ x) (h2 : x ≤ 2147483647) :
    int_chk x = some x := by
  simp [int_chk, INT_MIN, INT_MAX, h1, h2]

theorem c_abs_of_bounds {x : Int} (h1 : -2147483648 < x) :
    c_abs x = some (if x < 0 then -x else x) := by
  have : x ≠ INT_MIN := by simp only [INT_MIN]; omega
  simp [c_abs, this]

theorem sq_lt {r c : Int} (h : onBoard r c) : sq r c < 64 := by
  unfold onBoard at h; unfold sq; omega

theorem get_bit_on {r c : Int} (h : onBoard r c) : get_bit r c = some (2 ^ sq r c) := by
  have hs := sq_lt h
  unfold onBoard at h
  have e1 : int_chk (r * 8) = some (r * 8) := int_chk_of_bounds (by omega) (by omega)
  have e2 : int_chk (r * 8 + c) = some (r * 8 + c) := int_chk_of_bounds (by omega) (by omega)
  have e3 : 0 ≤ r * 8 + c ∧ r * 8 + c < 64 := by omega
  have e4 : (2 : Nat) ^ sq r c < 2 ^ 64 := Nat.pow_lt_pow_right (by decide) hs
  simp only [get_bit, e1, e2, Option.some_bind, e3, and_self, if_true, Nat.one_shiftLeft]
  rw [Nat.mod_eq_of_lt]
  · rfl
  · exact e4

theorem and_two_pow_ne_zero (b s : Nat) : (b &&& 2 ^ s ≠ 0) ↔ b.testBit s = true := by
  constructor
  · intro h
    by_contra hb
    apply h
    apply Nat.eq_of_testBit_eq
    intro i
    simp only [Nat.testBit_and, Nat.testBit_two_pow, Nat.zero_testBit]
    by_cases hi : s = i
    · subst hi; simp [hb]
    · simp [hi]
  · intro h h0
    have := congrArg (fun x => x.testBit s) h0
    simp [h] at this

theorem testBit_bnot64_two_pow {s : Nat} (hs : s < 64) (i : Nat) :
    (bnot64 (2 ^ s)).testBit i = (decide (i < 64) && decide (i ≠ s)) := by
  have e4 : (2 : Nat) ^ s < 2 ^ 64 := Nat.pow_lt_pow_right (by decide) hs
  have : bnot64 (2 ^ s) = 2 ^ 64 - (2 ^ s + 1) := by unfold bnot64; omega
  rw [this, Nat.testBit_two_pow_sub_succ e4, Nat.testBit_two_pow]
  by_cases h : s = i
  · subst h; simp
  · have : i ≠ s := fun e => h e.symm
    simp [h, this]

theorem is_bit_set_on (b : Nat) {r c : Int} (h : onBoard r c) :
    is_bit_set b r c = some (if b.testBit (sq r c) then 1 else 0) := by
  simp only [is_bit_set, get_bit_on h, Option.some_bind, and_two_pow_ne_zero]

theorem set_bit_on (b : Nat) {r c : Int} (h : onBoard r c) :
    set_bit b r c = some (b ||| 2 ^ sq r c) := by
  simp only [set_bit, get_bit_on h, Option.some_bind]

theorem clear_bit_on (b : Nat) {r c : Int} (h : onBoard r c) :
    clear_bit b r c = some (b &&& bnot64 (2 ^ sq r c)) := by
  simp only [clear_bit, get_bit_on h, Option.some_bind]

theorem valid_move_eq_spec (g : Game) {r1 c1 : Int} (r2 c2 : Int) (h : onBoard r1 c1) :
    valid_move g r1 c1 r2 c2 = some (valid_move_spec g r1 c1 r2 c2) := by
  unfold valid_move valid_move_spec
  by_cases hb : r2 < 0 ∨ r2 > 7 ∨ c2 < 0 ∨ c2 > 7
  · have hb2 : r2 < 0 ∨ 7 < r2 ∨ c2 < 0 ∨ 7 < c2 := by omega
    rw [if_pos hb, if_pos hb2]
  · have hb2 : ¬ (r2 < 0 ∨ 7 < r2 ∨ c2 < 0 ∨ 7 < c2) := by omega
    have h2 : onBoard r2 c2 := by unfold onBoard; omega
    rw [if_neg hb, if_neg hb2]
    have hocc : is_occupied g r2 c2 = some (if occupiedAt g (sq r2 c2) then 1 else 0) := by
      simp only [is_occupied, is_bit_set_on _ h2, occupiedAt, Nat.testBit_or]
    rw [hocc, Option.some_bind]
    by_cases ho : occupiedAt g (sq r2 c2) = true
    · simp [ho]
    · simp only [ho]
      unfold onBoard at h h2
      have e1 : int_chk (r2 - r1) = some (r2 - r1) := int_chk_of_bounds (by omega) (by omega)
      have e2 : int_chk (c2 - c1) = some (c2 - c1) := int_chk_of_bounds (by omega) (by omega)
      have e3 : int_chk (r1 + r2) = some (r1 + r2) := int_chk_of_bounds (by omega) (by omega)
      have e4 : int_chk (c1 + c2) = some (c1 + c2) := int_chk_of_bounds (by omega) (by omega)
      have e5 : c_abs (r2 - r1) = some (iabs (r2 - r1)) := c_abs_of_bounds (by omega)
      have e6 : c_abs (c2 - c1) = some (iabs (c2 - c1)) := c_abs_of_bounds (by omega)
      have e7 : Int.tdiv (r1 + r2) 2 = (r1 + r2) / 2 :=
        Int.tdiv_eq_ediv (by omega) (by omega)
      have e8 : Int.tdiv (c1 + c2) 2 = (c1 + c2) / 2 :=
        Int.tdiv_eq_ediv (by omega) (by omega)
      have hk := is_bit_set_on (cur_player g).kings (r := r1) (c := c1) (by unfold onBoard; omega)
      simp only [e1, e2, e3, e4, e5, e6, e7, e8, hk, Option.some_bind]
      by_cases hj : iabs (r2 - r1) = 2 ∧ iabs (c2 - c1) = 2
      · have hm : onBoard ((r1 + r2) / 2) ((c1 + c2) / 2) := by
          unfold iabs at hj; unfold onBoard
          obtain ⟨hj1, hj2⟩ := hj
          split at hj1 <;> split at hj2 <;> omega
        have h1 : ¬ (iabs (r2 - r1) = 1) := by omega
        simp only [is_bit_set_on _ hm, hj.1, hj.2, Nat.testBit_or]
        by_cases he1 : (cur_enemy g).men.testBit (sq ((r1 + r2) / 2) ((c1 + c2) / 2)) = true <;>
        by_cases he2 : (cur_enemy g).kings.testBit (sq ((r1 + r2) / 2) ((c1 + c2) / 2)) = true <;>
        simp [he1, he2]
      · by_cases ha : iabs (r2 - r1) = 1
        · have ha2 : ¬ iabs (r2 - r1) = 2 := by omega
          by_cases hc : iabs (c2 - c1) = 1 <;>
          by_cases hkk : (cur_player g).kings.testBit (sq r1 c1) = true <;>
          (simp [ha, hc, hkk, forward]; try rw [apply_ite some])
        · by_cases ha2 : iabs (r2 - r1) = 2
          · have hc : ¬ iabs (c2 - c1) = 2 := fun h => hj ⟨ha2, h⟩
            simp [ha, ha2, hc]
          · simp [ha, ha2]

theorem testBit_set (b s i : Nat) :
    (b ||| 2 ^ s).testBit i = true ↔ b.testBit i = true ∨ i = s := by
  rw [Nat.testBit_or, Nat.testBit_two_pow, Bool.or_eq_true, decide_eq_true_eq]
  exact or_congr Iff.rfl eq_comm

theorem testBit_clear (b : Nat) {s i : Nat} (hs : s < 64) (hi : i < 64) :
    (b &&& bnot64 (2 ^ s)).testBit i = true ↔ b.testBit i = true ∧ i ≠ s := by
  rw [Nat.testBit_and, testBit_bnot64_two_pow hs]
  simp [hi]

theorem crown_col_spec (g : Game) {c : Nat} (hc : c < 8) :
    ∃ g', crown_col g (c : Int) = some g' ∧ crownedOn [c] g g' := by
  have hr : onBoard 0 (c : Int) := by unfold onBoard; omega
  have hb : onBoard 7 (c : Int) := by unfold onBoard; omega
  have sr : sq 0 (c : Int) = c := by unfold sq; omega
  have sb : sq 7 (c : Int) = 56 + c := by unfold sq; omega
  have hc1 : c < 64 := by omega
  have hc2 : 56 + c < 64 := by omega
  simp only [crown_col, crown_red, crown_black, is_bit_set_on _ hr, is_bit_set_on _ hb,
    clear_bit_on _ hr, clear_bit_on _ hb, set_bit_on _ hr, set_bit_on _ hb, sr, sb,
    Option.some_bind, crownedOn, List.mem_singleton, exists_eq_left]
  by_cases h1 : g.red.men.testBit c = true <;> by_cases h2 : g.black.men.testBit (56 + c) = true
  all_goals
    simp only [h1, h2, if_true, if_false, Option.some_bind, ne_eq, one_ne_zero, not_false_eq_true,
      not_true_eq_false, Bool.false_eq_true]
    refine ⟨_, rfl, rfl, ?_⟩
    intro i hi
    try simp only [testBit_set, testBit_clear _ hc1 hi, testBit_clear _ hc2 hi]
    by_cases e1 : i = c <;> by_cases e2 : i = 56 + c <;> simp_all

theorem crownedOn_cons {c : Nat} {cs : List Nat} {g g1 g2 : Game}
    (h1 : crownedOn [c] g g1) (h2 : crownedOn cs g1 g2) : crownedOn (c :: cs) g g2 := by
  obtain ⟨t1, b1⟩ := h1
  obtain ⟨t2, b2⟩ := h2
  refine ⟨t2.trans t1, ?_⟩
  intro i hi
  obtain ⟨p1, p2, p3, p4⟩ := b1 i hi
  obtain ⟨q1, q2, q3, q4⟩ := b2 i hi
  simp only [List.mem_singleton, exists_eq_left] at p1 p2 p3 p4
  rw [q1, q2, q3, q4, p1, p2, p3, p4]
  simp only [List.mem_cons, exists_eq_or_imp]
  clear p1 p2 p3 p4 q1 q2 q3 q4 b1 b2 t1 t2 hi
  generalize (∃ c ∈ cs, i = 56 + c) = E
  refine ⟨?_, ?_, ?_, ?_⟩ <;> tauto

theorem crown_fold_spec (cs : List Nat) (hcs : ∀ c ∈ cs, c < 8) (g : Game) :
    ∃ g', (cs.map Int.ofNat).foldlM crown_col g = some g' ∧ crownedOn cs g g' := by
  induction cs generalizing g with
  | nil =>
    refine ⟨g, rfl, rfl, ?_⟩
    intro i _
    simp
  | cons c cs ih =>
    obtain ⟨g1, e1, h1⟩ := crown_col_spec g (hcs c (List.mem_cons_self c cs))
    obtain ⟨g2, e2, h2⟩ := ih (fun x hx => hcs x (List.mem_cons_of_mem c hx)) g1
    refine ⟨g2, ?_, crownedOn_cons h1 h2⟩
    simp only [List.map_cons, List.foldlM_cons]
    have e1' : crown_col g (Int.ofNat c) = some g1 := e1
    rw [e1']
    exact e2

theorem crown_king_spec (g : Game) : ∃ g', crown_king g = some g' ∧ crowned g g' := by
  obtain ⟨g', e, t, b⟩ := crown_fold_spec [0, 1, 2, 3, 4, 5, 6, 7] (by decide) g
  refine ⟨g', e, t, ?_⟩
  intro i hi
  obtain ⟨p1, p2, p3, p4⟩ := b i hi
  have m1 : i ∈ [0, 1, 2, 3, 4, 5, 6, 7] ↔ i < 8 := by
    simp only [List.mem_cons, List.mem_singleton, List.not_mem_nil, or_false]; omega
  have m2 : (∃ c ∈ [0, 1, 2, 3, 4, 5, 6, 7], i = 56 + c) ↔ 56 ≤ i := by
    simp only [List.mem_cons, List.mem_singleton, List.not_mem_nil, or_false, exists_eq_or_imp,
      exists_eq_left]
    omega
  rw [m1] at p1 p2
  rw [m2] at p3 p4
  refine ⟨?_, ?_, ?_, ?_⟩
  · rw [p1]; simp only [not_lt]
  · exact p2
  · rw [p3]; simp only [not_le]
  · exact p4

theorem valid_move_spec_ne_zero {g : Game} {r1 c1 r2 c2 : Int}
    (h : valid_move_spec g r1 c1 r2 c2 ≠ 0) :
    onBoard r2 c2 ∧ occupiedAt g (sq r2 c2) = false ∧
    (valid_move_spec g r1 c1 r2 c2 = 1 ∨ valid_move_spec g r1 c1 r2 c2 = 2) ∧
    (valid_move_spec g r1 c1 r2 c2 = 1 →
      iabs (r2 - r1) = 1 ∧ iabs (c2 - c1) = 1 ∧
      ((cur_player g).kings.testBit (sq r1 c1) = true ∨ r2 - r1 = forward g)) ∧
    (valid_move_spec g r1 c1 r2 c2 = 2 →
      iabs (r2 - r1) = 2 ∧ iabs (c2 - c1) = 2 ∧
      ((cur_enemy g).men.testBit (sq ((r1 + r2) / 2) ((c1 + c2) / 2)) = true ∨
       (cur_enemy g).kings.testBit (sq ((r1 + r2) / 2) ((c1 + c2) / 2)) = true)) := by
  unfold valid_move_spec at h ⊢
  by_cases hb : r2 < 0 ∨ 7 < r2 ∨ c2 < 0 ∨ 7 < c2
  · rw [if_pos hb] at h; exact absurd rfl h
  · rw [if_neg hb] at h ⊢
    by_cases ho : occupiedAt g (sq r2 c2) = true
    · rw [if_pos ho] at h; exact absurd rfl h
    · rw [if_neg ho] at h ⊢
      refine ⟨by unfold onBoard; omega, by simpa using ho, ?_⟩
      simp only at h ⊢
      split_ifs with h1 h2
      · simp [h1]
      · simp [h2]
      · rw [if_neg h1, if_neg h2] at h; exact absurd rfl h

theorem mid_onBoard {r1 c1 r2 c2 : Int} (h1 : onBoard r1 c1) (h2 : onBoard r2 c2) :
    onBoard ((r1 + r2) / 2) ((c1 + c2) / 2) := by
  unfold onBoard at *; omega

theorem mid_tdiv {r1 r2 : Int} (h1 : 0 ≤ r1) (h2 : 0 ≤ r2) :
    Int.tdiv (r1 + r2) 2 = (r1 + r2) / 2 := Int.tdiv_eq_ediv (by omega) (by omega)

theorem cur_player_put (g : Game) (p e : Player) : cur_player (put_players g p e) = p := by
  unfold cur_player put_players; split <;> simp_all

theorem cur_enemy_put (g : Game) (p e : Player) : cur_enemy (put_players g p e) = e := by
  unfold cur_enemy put_players; split <;> simp_all

theorem turn_put (g : Game) (p e : Player) : (put_players g p e).turn = g.turn := by
  unfold put_players; split <;> rfl

theorem move_piece_relocate_spec (g : Game) (mt : Int) {r1 c1 r2 c2 : Int}
    (h1 : onBoard r1 c1) (h2 : onBoard r2 c2) :
    ∃ g1, move_piece_relocate g mt r1 c1 r2 c2 = some g1 ∧
      relocated g (mt = 2) (sq r1 c1) (sq r2 c2) (sq ((r1 + r2) / 2) ((c1 + c2) / 2)) g1 := by
  have hm := mid_onBoard h1 h2
  have ho := sq_lt h1
  have hd := sq_lt h2
  have hmm := sq_lt hm
  have e3 : int_chk (r1 + r2) = some (r1 + r2) := by
    unfold onBoard at h1 h2; exact int_chk_of_bounds (by omega) (by omega)
  have e4 : int_chk (c1 + c2) = some (c1 + c2) := by
    unfold onBoard at h1 h2; exact int_chk_of_bounds (by omega) (by omega)
  have e7 : Int.tdiv (r1 + r2) 2 = (r1 + r2) / 2 := mid_tdiv h1.1 h2.1
  have e8 : Int.tdiv (c1 + c2) 2 = (c1 + c2) / 2 := mid_tdiv h1.2.2.1 h2.2.2.1
  simp only [move_piece_relocate, is_bit_set_on _ h1, clear_bit_on _ h1, set_bit_on _ h2, e3, e4,
    e7, e8, clear_bit_on _ hm, Option.some_bind]
  by_cases hk : (cur_player g).kings.testBit (sq r1 c1) = true <;> by_cases hj : mt = 2
  all_goals
    simp only [hk, hj, if_true, if_false, Option.some_bind, ne_eq, one_ne_zero, not_false_eq_true,
      not_true_eq_false, Bool.false_eq_true]
    refine ⟨_, rfl, turn_put _ _ _, ?_⟩
    intro i hi
    simp only [cur_player_put, cur_enemy_put, testBit_set, testBit_clear _ ho hi,
      testBit_clear _ hmm hi]
    simp_all

theorem move_piece_spec (g : Game) {r1 c1 r2 c2 : Int} (h1 : onBoard r1 c1)
    (hv : valid_move_spec g r1 c1 r2 c2 ≠ 0) :
    ∃ g1 g2, move_piece_relocate g (valid_move_spec g r1 c1 r2 c2) r1 c1 r2 c2 = some g1 ∧
      relocated g (valid_move_spec g r1 c1 r2 c2 = 2) (sq r1 c1) (sq r2 c2)
        (sq ((r1 + r2) / 2) ((c1 + c2) / 2)) g1 ∧
      crown_king g1 = some g2 ∧ crowned g1 g2 ∧
      move_piece g r1 c1 r2 c2 = some (1, { g2 with turn := if g2.turn = 0 then 1 else 0 }) := by
  obtain ⟨h2, -, -, -, -⟩ := valid_move_spec_ne_zero hv
  obtain ⟨g1, e1, s1⟩ := move_piece_relocate_spec g (valid_move_spec g r1 c1 r2 c2) h1 h2
  obtain ⟨g2, e2, s2⟩ := crown_king_spec g1
  refine ⟨g1, g2, e1, s1, e2, s2, ?_⟩
  simp only [move_piece, valid_move_eq_spec g r2 c2 h1, Option.some_bind, if_neg hv, e1, e2]

theorem move_piece_illegal (g : Game) {r1 c1 r2 c2 : Int}
    (hv : valid_move g r1 c1 r2 c2 = some 0) : move_piece g r1 c1 r2 c2 = some (0, g) := by
  simp only [move_piece, hv, Option.some_bind, if_true]

theorem disjoint_iff (g : Game) : disjoint g ↔ ∀ i, i < 64 → disjointAt g i := by
  constructor
  · intro h i hi
    have := h (i / 8) (by omega) (i % 8) (by omega)
    have e : i / 8 * 8 + i % 8 = i := by omega
    rwa [e] at this
  · intro h r hr c hc
    exact h _ (by omega)

theorem disjointAt_iff (g : Game) (i : Nat) :
    disjointAt g i ↔
      ¬ (g.red.men.testBit i = true ∧ g.red.kings.testBit i = true) ∧
      ¬ (g.red.men.testBit i = true ∧ g.black.men.testBit i = true) ∧
      ¬ (g.red.men.testBit i = true ∧ g.black.kings.testBit i = true) ∧
      ¬ (g.red.kings.testBit i = true ∧ g.black.men.testBit i = true) ∧
      ¬ (g.red.kings.testBit i = true ∧ g.black.kings.testBit i = true) ∧
      ¬ (g.black.men.testBit i = true ∧ g.black.kings.testBit i = true) := by
  unfold disjointAt
  cases g.red.men.testBit i <;> cases g.red.kings.testBit i <;>
    cases g.black.men.testBit i <;> cases g.black.kings.testBit i <;> simp

theorem crowned_disjointAt {g1 g2 : Game} (hc : crowned g1 g2) {i : Nat} (hi : i < 64)
    (hd : disjointAt g1 i) : disjointAt g2 i := by
  obtain ⟨p1, p2, p3, p4⟩ := hc.2 i hi
  rw [disjointAt_iff] at hd ⊢
  rw [p1, p2, p3, p4]
  clear p1 p2 p3 p4 hc
  revert hd
  cases g1.red.men.testBit i <;> cases g1.red.kings.testBit i <;>
    cases g1.black.men.testBit i <;> cases g1.black.kings.testBit i <;> simp

theorem relocated_disjointAt {g g1 : Game} {J : Prop} {o d m : Nat}
    (hr : relocated g J o d m g1) (hd : occupiedAt g d = false) {i : Nat} (hi : i < 64)
    (hg : disjointAt g i) : disjointAt g1 i := by
  obtain ⟨ht, hb⟩ := hr
  obtain ⟨p1, p2, p3, p4⟩ := hb i hi
  rw [disjointAt_iff] at hg ⊢
  simp only [occupiedAt, Bool.or_eq_false_iff] at hd
  obtain ⟨⟨⟨d1, d2⟩, d3⟩, d4⟩ := hd
  by_cases hturn : g.turn = 0
  · have hturn1 : g1.turn = 0 := ht.trans hturn
    simp only [cur_player, cur_enemy, hturn, hturn1, ne_eq, not_true_eq_false, if_false] at p1 p2 p3 p4
    rw [p1, p2, p3, p4]
    clear p1 p2 p3 p4 hb
    by_cases hid : i = d
    · subst hid
      simp only [d1, d2, d3, d4]
      cases g.red.kings.testBit o <;> simp
    · simp only [hid, and_false, or_false]
      revert hg
      cases g.red.men.testBit i <;> cases g.red.kings.testBit i <;>
        cases g.black.men.testBit i <;> cases g.black.kings.testBit i <;> simp
  · have hturn1 : ¬ g1.turn = 0 := fun e => hturn (ht ▸ e)
    simp only [cur_player, cur_enemy, hturn, hturn1, ne_eq, not_false_eq_true, if_true] at p1 p2 p3 p4
    rw [p1, p2, p3, p4]
    clear p1 p2 p3 p4 hb
    by_cases hid : i = d
    · subst hid
      simp only [d1, d2, d3, d4]
      cases g.black.kings.testBit o <;> simp
    · simp only [hid, and_false, or_false]
      revert hg
      cases g.red.men.testBit i <;> cases g.red.kings.testBit i <;>
        cases g.black.men.testBit i <;> cases g.black.kings.testBit i <;> simp

theorem move_piece_disjoint (g : Game) {r1 c1 : Int} (r2 c2 : Int) (h1 : onBoard r1 c1)
    (hd : disjoint g) :
    ∃ ret g', move_piece g r1 c1 r2 c2 = some (ret, g') ∧ (ret = 0 ∨ ret = 1) ∧ disjoint g' := by
  by_cases hv : valid_move_spec g r1 c1 r2 c2 = 0
  · refine ⟨0, g, ?_, Or.inl rfl, hd⟩
    apply move_piece_illegal
    rw [valid_move_eq_spec g r2 c2 h1, hv]
  · obtain ⟨g1, g2, -, s1, -, s2, e⟩ := move_piece_spec g h1 hv
    obtain ⟨-, hocc, -, -, -⟩ := valid_move_spec_ne_zero hv
    refine ⟨1, _, e, Or.inr rfl, ?_⟩
    rw [disjoint_iff] at hd ⊢
    intro i hi
    have := crowned_disjointAt s2 hi (relocated_disjointAt s1 hocc hi (hd i hi))
    exact this

/-- Claim C1: when `valid_move` returns 0 (illegal), `move_piece` returns 0 and the
state it leaves is the input state, equal in all five fields. -/
theorem rejected_move_unchanged (g : Game) (r1 c1 r2 c2 : Int)
    (h : valid_move g r1 c1 r2 c2 = some 0) :
    ∃ g', move_piece g r1 c1 r2 c2 = some (0, g') ∧
      g'.red.men = g.red.men ∧ g'.red.kings = g.red.kings ∧
      g'.black.men = g.black.men ∧ g'.black.kings = g.black.kings ∧ g'.turn = g.turn :=
  ⟨g, move_piece_illegal g h, rfl, rfl, rfl, rfl, rfl⟩

/-- From the opening position `move_piece(2,1,3,0)` is rejected and changes nothing. -/
theorem rejected_move_unchanged_witness :
    init_game initial = some initial ∧ valid_move initial 2 1 3 0 = some 0 ∧
    ∃ g', move_piece initial 2 1 3 0 = some (0, g') ∧
      g'.red.men = initial.red.men ∧ g'.red.kings = initial.red.kings ∧
      g'.black.men = initial.black.men ∧ g'.black.kings = initial.black.kings ∧
      g'.turn = initial.turn :=
  ⟨by decide, by decide, rejected_move_unchanged initial 2 1 3 0 (by decide)⟩

theorem init_game_eq (g : Game) : init_game g = some initial := rfl

/-- Claim C2: the state produced by `init_game` satisfies the disjointness invariant,
and from a state satisfying it every call of `move_piece` with origin on the board
returns (0 or 1) and leaves a state that satisfies it. -/
theorem disjointness_invariant :
    (∀ g : Game, ∃ g0, init_game g = some g0 ∧ disjoint g0) ∧
    (∀ (g : Game) (r1 c1 r2 c2 : Int), disjoint g → onBoard r1 c1 →
      ∃ ret g', move_piece g r1 c1 r2 c2 = some (ret, g') ∧ (ret = 0 ∨ ret = 1) ∧ disjoint g') := by
  refine ⟨fun g => ⟨initial, init_game_eq g, by decide⟩, ?_⟩
  intro g r1 c1 r2 c2 hd h1
  obtain ⟨ret, g', e, hr, hd'⟩ := move_piece_disjoint g r2 c2 h1 hd
  exact ⟨ret, g', e, hr, hd'⟩

/-- The invariant holds after the opening move 5,0 to 4,1. -/
theorem disjointness_invariant_witness :
    disjoint initial ∧ onBoard 5 0 ∧
    ∃ ret g', move_piece initial 5 0 4 1 = some (ret, g') ∧ (ret = 0 ∨ ret = 1) ∧ disjoint g' :=
  ⟨by decide, by decide, disjointness_invariant.2 initial 5 0 4 1 (by decide) (by decide)⟩

/-- Claim C3: for an origin on the board `valid_move` returns exactly what the rule
list of the specification gives: 0 for a destination off the board or occupied,
else 1 for a one-square diagonal step by a king or in the forward direction, else 2
for a two-square diagonal move over an enemy piece, else 0. -/
theorem valid_move_rule_list (g : Game) (r1 c1 r2 c2 : Int) (h : onBoard r1 c1) :
    valid_move g r1 c1 r2 c2 = some (valid_move_spec g r1 c1 r2 c2) :=
  valid_move_eq_spec g r2 c2 h

/-- The rule list at the opening move 5,0 to 4,1, a step. -/
theorem valid_move_rule_list_witness :
    onBoard 5 0 ∧ valid_move_spec initial 5 0 4 1 = 1 ∧
    valid_move initial 5 0 4 1 = some (valid_move_spec initial 5 0 4 1) :=
  ⟨by decide, by decide, valid_move_rule_list initial 5 0 4 1 (by decide)⟩

/-- Claim C10: whatever the prior contents, `init_game` yields the state with Black
men exactly on the squares of rows 0 to 2 with `r + c` odd, Red men exactly on those
of rows 5 to 7, twelve of each, no kings, and Red to move. -/
theorem init_game_standard (g : Game) :
    ∃ g0, init_game g = some g0 ∧
      (∀ r, r < 8 → ∀ c, c < 8 →
        (g0.black.men.testBit (r * 8 + c) = true ↔ r < 3 ∧ (r + c) % 2 = 1)) ∧
      (∀ r, r < 8 → ∀ c, c < 8 →
        (g0.red.men.testBit (r * 8 + c) = true ↔ 5 ≤ r ∧ (r + c) % 2 = 1)) ∧
      g0.black.men < 2 ^ 64 ∧ g0.red.men < 2 ^ 64 ∧
      pieceCount g0.black.men = 12 ∧ pieceCount g0.red.men = 12 ∧
      g0.red.kings = 0 ∧ g0.black.kings = 0 ∧ g0.turn = 0 :=
  ⟨initial, init_game_eq g, by decide, by decide, by decide, by decide, by decide, by decide,
    rfl, rfl, rfl⟩

theorem move_piece_accepted {g g' : Game} {r1 c1 r2 c2 : Int} (h1 : onBoard r1 c1)
    (hm : move_piece g r1 c1 r2 c2 = some (1, g')) :
    valid_move_spec g r1 c1 r2 c2 ≠ 0 := by
  intro hv
  have hv' : valid_move g r1 c1 r2 c2 = some 0 := by rw [valid_move_eq_spec g r2 c2 h1, hv]
  rw [move_piece_illegal g hv'] at hm
  exact absurd (Prod.mk.inj (Option.some.inj hm)).1 (by decide)

/-- Claim C4: after a call of `move_piece` with origin on the board that returns 1,
no bit of row 0 is set in `red.men` and none of row 7 in `black.men`; every row-0
square holding a Red man, and every row-7 square holding a Black man, in the state
just before the promotion pass is set in that side's kings afterwards; and so is the
destination of the moved piece when it lies on the mover's promotion row. -/
theorem promotion_postcondition (g g' : Game) (r1 c1 r2 c2 : Int) (h1 : onBoard r1 c1)
    (hm : move_piece g r1 c1 r2 c2 = some (1, g')) :
    (∀ c, c < 8 → g'.red.men.testBit (0 * 8 + c) = false) ∧
    (∀ c, c < 8 → g'.black.men.testBit (7 * 8 + c) = false) ∧
    (∃ mt g1 g2, valid_move g r1 c1 r2 c2 = some mt ∧
      move_piece_relocate g mt r1 c1 r2 c2 = some g1 ∧ crown_king g1 = some g2 ∧
      g' = { g2 with turn := if g2.turn = 0 then 1 else 0 } ∧
      (∀ c, c < 8 → g1.red.men.testBit (0 * 8 + c) = true →
        g'.red.kings.testBit (0 * 8 + c) = true) ∧
      (∀ c, c < 8 → g1.black.men.testBit (7 * 8 + c) = true →
        g'.black.kings.testBit (7 * 8 + c) = true)) ∧
    (g.turn = 0 → r2 = 0 → g'.red.kings.testBit (sq r2 c2) = true) ∧
    (g.turn ≠ 0 → r2 = 7 → g'.black.kings.testBit (sq r2 c2) = true) := by
  have hv := move_piece_accepted h1 hm
  obtain ⟨g1, g2, e1, s1, e2, s2, e⟩ := move_piece_spec g h1 hv
  rw [e] at hm
  have hg' : g' = { g2 with turn := if g2.turn = 0 then 1 else 0 } :=
    (congrArg (fun x => x.2) (Option.some.inj hm)).symm
  obtain ⟨h2, -, -, -, -⟩ := valid_move_spec_ne_zero hv
  have hd := sq_lt h2
  subst hg'
  obtain ⟨t1, b1⟩ := s1
  obtain ⟨t2, b2⟩ := s2
  refine ⟨?_, ?_, ⟨_, g1, g2, valid_move_eq_spec g r2 c2 h1, e1, e2, rfl, ?_, ?_⟩, ?_, ?_⟩
  · intro c hc
    have := (b2 (0 * 8 + c) (by omega)).1
    simp only at this ⊢
    rw [← Bool.not_eq_true, this]
    omega
  · intro c hc
    have := (b2 (7 * 8 + c) (by omega)).2.2.1
    simp only at this ⊢
    rw [← Bool.not_eq_true, this]
    omega
  · intro c hc hmen
    have := (b2 (0 * 8 + c) (by omega)).2.1
    simp only at this ⊢
    rw [this]
    exact Or.inr ⟨hmen, by omega⟩
  · intro c hc hmen
    have := (b2 (7 * 8 + c) (by omega)).2.2.2
    simp only at this ⊢
    rw [this]
    exact Or.inr ⟨hmen, by omega⟩
  · intro ht hr
    have hs : sq r2 c2 < 8 := by unfold onBoard at h2; unfold sq; omega
    have ht1 : g1.turn = 0 := t1.trans ht
    obtain ⟨p1, p2, -, -⟩ := b1 (sq r2 c2) hd
    simp only [cur_player, ht, ht1, ne_eq, not_true_eq_false, if_false] at p1 p2
    obtain ⟨-, q2, -, -⟩ := b2 (sq r2 c2) hd
    simp only
    rw [q2, p1, p2]
    cases hk : g.red.kings.testBit (sq r1 c1)
    · exact Or.inr ⟨Or.inr ⟨rfl, trivial⟩, hs⟩
    · exact Or.inl (Or.inr ⟨rfl, trivial⟩)
  · intro ht hr
    have hs : 56 ≤ sq r2 c2 := by unfold onBoard at h2; unfold sq; omega
    have ht1 : ¬ g1.turn = 0 := fun e => ht (t1 ▸ e)
    obtain ⟨p1, p2, -, -⟩ := b1 (sq r2 c2) hd
    simp only [cur_player, ht, ht1, ne_eq, not_false_eq_true, if_true] at p1 p2
    obtain ⟨-, -, -, q4⟩ := b2 (sq r2 c2) hd
    simp only
    rw [q4, p1, p2]
    cases hk : g.black.kings.testBit (sq r1 c1)
    · exact Or.inr ⟨Or.inr ⟨rfl, trivial⟩, hs⟩
    · exact Or.inl (Or.inr ⟨rfl, trivial⟩)

/-- A lone Red man stepping from (1,2) to (0,1) is crowned. -/
theorem promotion_postcondition_witness :
    onBoard 1 2 ∧
    move_piece promo_state 1 2 0 1 =
      some (1, { red := { men := 0, kings := 2 }, black := { men := 0, kings := 0 }, turn := 1 }) ∧
    (promo_state.turn = 0 → (0 : Int) = 0 →
      Nat.testBit (2 : Nat) (sq 0 1) = true) :=
  ⟨by decide, by decide,
    (promotion_postcondition promo_state
      { red := { men := 0, kings := 2 }, black := { men := 0, kings := 0 }, turn := 1 }
      1 2 0 1 (by decide) (by decide)).2.2.2.1⟩

theorem testBit_occupancy (p : Player) (i : Nat) :
    (occupancy p).testBit i = true ↔ p.men.testBit i = true ∨ p.kings.testBit i = true := by
  simp only [occupancy, Nat.testBit_or, Bool.or_eq_true]

theorem crowned_occupancy {g1 g2 : Game} (hc : crowned g1 g2) {i : Nat} (hi : i < 64) :
    ((occupancy g2.red).testBit i = true ↔ (occupancy g1.red).testBit i = true) ∧
    ((occupancy g2.black).testBit i = true ↔ (occupancy g1.black).testBit i = true) := by
  obtain ⟨p1, p2, p3, p4⟩ := hc.2 i hi
  simp only [testBit_occupancy, p1, p2, p3, p4]
  clear p1 p2 p3 p4 hc
  constructor
  · by_cases h : i < 8
    · have h' : ¬ 8 ≤ i := by omega
      simp only [h, h', and_true, and_false, false_or]
      exact or_comm
    · have h' : 8 ≤ i := by omega
      simp only [h, h', and_true, and_false, or_false]
  · by_cases h : i < 56
    · have h' : ¬ 56 ≤ i := by omega
      simp only [h, h', and_true, and_false, or_false]
    · have h' : 56 ≤ i := by omega
      simp only [h, h', and_true, and_false, false_or]
      exact or_comm

theorem pieceCount_remove {b b' : Nat} {m : Nat} (hm : m < 64) (hb : b.testBit m = true)
    (h : ∀ i, i < 64 → (b'.testBit i = true ↔ b.testBit i = true ∧ i ≠ m)) :
    pieceCount b' + 1 = pieceCount b := by
  unfold pieceCount
  have hmem : m ∈ (Finset.range 64).filter (fun i => b.testBit i = true) := by
    simp only [Finset.mem_filter, Finset.mem_range]; exact ⟨hm, hb⟩
  have he : (Finset.range 64).filter (fun i => b'.testBit i = true) =
      ((Finset.range 64).filter (fun i => b.testBit i = true)).erase m := by
    ext i
    simp only [Finset.mem_filter, Finset.mem_range, Finset.mem_erase]
    constructor
    · rintro ⟨hi, hb'⟩
      have := (h i hi).1 hb'
      exact ⟨this.2, hi, this.1⟩
    · rintro ⟨hne, hi, hbi⟩
      exact ⟨hi, (h i hi).2 ⟨hbi, hne⟩⟩
  rw [he, Finset.card_erase_of_mem hmem]
  have := Finset.card_pos.2 ⟨m, hmem⟩
  omega

/-- Claim C5: when `valid_move` returns 2 for a move with origin on the board,
`move_piece` succeeds and the enemy's occupancy afterwards is its occupancy before
with the midpoint bit, which was set, removed: no other enemy square changes and the
enemy's piece count drops by exactly one.  (Disjointness is not needed.) -/
theorem jump_removes_midpoint (g : Game) (r1 c1 r2 c2 : Int) (h1 : onBoard r1 c1)
    (hv : valid_move g r1 c1 r2 c2 = some 2) :
    ∃ g', move_piece g r1 c1 r2 c2 = some (1, g') ∧
      onBoard ((r1 + r2) / 2) ((c1 + c2) / 2) ∧
      (occupancy (cur_enemy g)).testBit (sq ((r1 + r2) / 2) ((c1 + c2) / 2)) = true ∧
      (∀ i, i < 64 →
        ((occupancy (enemy_in g g')).testBit i = true ↔
          (occupancy (cur_enemy g)).testBit i = true ∧ i ≠ sq ((r1 + r2) / 2) ((c1 + c2) / 2))) ∧
      pieceCount (occupancy (enemy_in g g')) + 1 = pieceCount (occupancy (cur_enemy g)) := by
  have hs : valid_move_spec g r1 c1 r2 c2 = 2 := by
    rw [valid_move_eq_spec g r2 c2 h1] at hv; exact Option.some.inj hv
  have hne : valid_move_spec g r1 c1 r2 c2 ≠ 0 := by rw [hs]; decide
  obtain ⟨g1, g2, -, s1, -, s2, e⟩ := move_piece_spec g h1 hne
  obtain ⟨h2, -, -, -, hj⟩ := valid_move_spec_ne_zero hne
  obtain ⟨-, -, hmid⟩ := hj hs
  have hm := mid_onBoard h1 h2
  have hml := sq_lt hm
  have hocc : (occupancy (cur_enemy g)).testBit (sq ((r1 + r2) / 2) ((c1 + c2) / 2)) = true :=
    (testBit_occupancy _ _).2 hmid
  have hbits : ∀ i, i < 64 →
      ((occupancy (enemy_in g { g2 with turn := if g2.turn = 0 then 1 else 0 })).testBit i = true ↔
        (occupancy (cur_enemy g)).testBit i = true ∧ i ≠ sq ((r1 + r2) / 2) ((c1 + c2) / 2)) := by
    intro i hi
    obtain ⟨t1, b1⟩ := s1
    obtain ⟨-, -, p3, p4⟩ := b1 i hi
    obtain ⟨c1', c2'⟩ := crowned_occupancy s2 hi
    simp only [hs, true_and] at p3 p4
    by_cases ht : g.turn = 0
    · have ht1 : g1.turn = 0 := t1.trans ht
      simp only [cur_enemy, ht, ht1, ne_eq, not_true_eq_false, if_false] at p3 p4
      simp only [enemy_in, cur_enemy, ht, ne_eq, not_true_eq_false, if_false]
      rw [c2', testBit_occupancy, testBit_occupancy, p3, p4]
      exact or_and_right.symm
    · have ht1 : ¬ g1.turn = 0 := fun e => ht (t1 ▸ e)
      simp only [cur_enemy, ht, ht1, ne_eq, not_false_eq_true, if_true] at p3 p4
      simp only [enemy_in, cur_enemy, ht, ne_eq, not_false_eq_true, if_true]
      rw [c1', testBit_occupancy, testBit_occupancy, p3, p4]
      exact or_and_right.symm
  exact ⟨_, e, hm, hocc, hbits, pieceCount_remove hml hocc hbits⟩

/-- The jump 3,3 to 1,1 removes the Black man at (2,2). -/
theorem jump_removes_midpoint_witness :
    onBoard 3 3 ∧ valid_move jump_state 3 3 1 1 = some 2 ∧
    ∃ g', move_piece jump_state 3 3 1 1 = some (1, g') ∧
      onBoard ((3 + 1) / 2) ((3 + 1) / 2) ∧
      (occupancy (cur_enemy jump_state)).testBit (sq ((3 + 1) / 2) ((3 + 1) / 2)) = true ∧
      (∀ i, i < 64 →
        ((occupancy (enemy_in jump_state g')).testBit i = true ↔
          (occupancy (cur_enemy jump_state)).testBit i = true ∧
            i ≠ sq ((3 + 1) / 2) ((3 + 1) / 2))) ∧
      pieceCount (occupancy (enemy_in jump_state g')) + 1 =
        pieceCount (occupancy (cur_enemy jump_state)) :=
  ⟨by decide, by decide, jump_removes_midpoint jump_state 3 3 1 1 (by decide) (by decide)⟩

/-- Claim C6, as stated, fails: with Red men at (0,1) and (5,0), the step 5,0 to 4,1
of a man is accepted, and the promotion pass also turns the man at (0,1) into a king,
so `red.men` and `red.kings` change at bit 1, which is neither origin nor destination. -/
theorem step_frame_counterexample :
    onBoard 5 0 ∧ (cur_player back_row_state).men.testBit (sq 5 0) = true ∧
    valid_move back_row_state 5 0 4 1 = some 1 ∧
    move_piece back_row_state 5 0 4 1 =
      some (1, { red := { men := 2 ^ 33, kings := 2 ^ 1 },
                 black := { men := 0, kings := 0 }, turn := 1 }) ∧
    1 ≠ sq 5 0 ∧ 1 ≠ sq 4 1 ∧
    back_row_state.red.men.testBit 1 = true ∧ Nat.testBit (2 ^ 33) 1 = false ∧
    back_row_state.red.kings.testBit 1 = false ∧ Nat.testBit (2 ^ 1) 1 = true := by
  decide

/-- Claim C6, amended: in a state with no Red man on row 0 and no Black man on row 7,
for a move whose origin holds a man of the side to move (set in its men, not in its
kings) and for which `valid_move` returns 1, the row changes by the side's forward
direction, the column by one, `move_piece` succeeds, no bitboard changes at a bit
other than origin and destination, the enemy's bitboards do not change at all, the
origin bit is cleared in the mover's men and kings, and the destination bit is set in
the mover's men and clear in its kings, except when the step reaches the mover's
promotion row (row 0 for Red, row 7 for Black), where it is set in the mover's kings
and clear in its men. -/
theorem step_frame (g : Game) (r1 c1 r2 c2 : Int) (h1 : onBoard r1 c1)
    (_hman : (cur_player g).men.testBit (sq r1 c1) = true)
    (hnk : (cur_player g).kings.testBit (sq r1 c1) = false)
    (hrow0 : ∀ c, c < 8 → g.red.men.testBit (0 * 8 + c) = false)
    (hrow7 : ∀ c, c < 8 → g.black.men.testBit (7 * 8 + c) = false)
    (hv : valid_move g r1 c1 r2 c2 = some 1) :
    r2 - r1 = forward g ∧ iabs (c2 - c1) = 1 ∧
    ∃ g', move_piece g r1 c1 r2 c2 = some (1, g') ∧
      (∀ i, i < 64 → i ≠ sq r1 c1 → i ≠ sq r2 c2 →
        (g'.red.men.testBit i = g.red.men.testBit i ∧
         g'.red.kings.testBit i = g.red.kings.testBit i ∧
         g'.black.men.testBit i = g.black.men.testBit i ∧
         g'.black.kings.testBit i = g.black.kings.testBit i)) ∧
      (∀ i, i < 64 →
        ((enemy_in g g').men.testBit i = (cur_enemy g).men.testBit i ∧
         (enemy_in g g').kings.testBit i = (cur_enemy g).kings.testBit i)) ∧
      (player_in g g').men.testBit (sq r1 c1) = false ∧
      (player_in g g').kings.testBit (sq r1 c1) = false ∧
      (r2 ≠ (if g.turn ≠ 0 then 7 else 0) →
        (player_in g g').men.testBit (sq r2 c2) = true ∧
        (player_in g g').kings.testBit (sq r2 c2) = false) ∧
      (r2 = (if g.turn ≠ 0 then 7 else 0) →
        (player_in g g').kings.testBit (sq r2 c2) = true ∧
        (player_in g g').men.testBit (sq r2 c2) = false) := by
  have hs : valid_move_spec g r1 c1 r2 c2 = 1 := by
    rw [valid_move_eq_spec g r2 c2 h1] at hv; exact Option.some.inj hv
  have hne : valid_move_spec g r1 c1 r2 c2 ≠ 0 := by rw [hs]; decide
  obtain ⟨g1, g2, -, s1, -, s2, e⟩ := move_piece_spec g h1 hne
  obtain ⟨h2, hocc, -, hstep, -⟩ := valid_move_spec_ne_zero hne
  obtain ⟨hdr, hdc, hdir⟩ := hstep hs
  have hfwd : r2 - r1 = forward g := by
    rcases hdir with hk | hf
    · rw [hnk] at hk; exact absurd hk (by decide)
    · exact hf
  refine ⟨hfwd, hdc, _, e, ?_⟩
  have ho := sq_lt h1
  have hd := sq_lt h2
  have hod : sq r1 c1 ≠ sq r2 c2 := by
    unfold iabs at hdr; unfold onBoard at h1 h2; unfold sq
    split at hdr <;> omega
  obtain ⟨t1, b1⟩ := s1
  obtain ⟨t2, b2⟩ := s2
  simp only [hs, show ¬ ((1 : Int) = 2) by decide, false_and, not_false_eq_true, and_true,
    hnk, Bool.false_eq_true, true_and] at b1
  simp only [occupiedAt, Bool.or_eq_false_iff] at hocc
  obtain ⟨⟨⟨d1, d2⟩, d3⟩, d4⟩ := hocc
  have r0 : ∀ i, g.red.men.testBit i = true → 8 ≤ i := by
    intro i hi
    by_contra hlt
    have := hrow0 i (by omega)
    rw [show 0 * 8 + i = i by omega, hi] at this
    exact absurd this (by decide)
  have r7 : ∀ i, i < 64 → g.black.men.testBit i = true → i < 56 := by
    intro i hi64 hi
    by_contra hge
    have := hrow7 (i - 56) (by omega)
    rw [show 7 * 8 + (i - 56) = i by omega, hi] at this
    exact absurd this (by decide)
  by_cases ht : g.turn = 0
  · have ht1 : g1.turn = 0 := t1.trans ht
    simp only [cur_player, cur_enemy, ht, ht1, ne_eq, not_true_eq_false, if_false] at b1 hnk
    simp only [player_in, enemy_in, cur_enemy, ht, ne_eq, not_true_eq_false, if_false]
    refine ⟨?_, ?_, ?_, ?_, ?_, ?_⟩
    · intro i hi hio hid
      obtain ⟨p1, p2, p3, p4⟩ := b1 i hi
      obtain ⟨q1, q2, q3, q4⟩ := b2 i hi
      simp only [hio, hid, not_false_eq_true, and_true, or_false] at p1 p2
      refine ⟨?_, ?_, ?_, ?_⟩
      · rw [Bool.eq_iff_iff, q1, p1]; exact and_iff_left_of_imp (r0 i)
      · rw [Bool.eq_iff_iff, q2, p1, p2]
        exact or_iff_left (fun h => absurd h.2 (by have := r0 i h.1; omega))
      · rw [Bool.eq_iff_iff, q3, p3]; exact and_iff_left_of_imp (r7 i hi)
      · rw [Bool.eq_iff_iff, q4, p3, p4]
        exact or_iff_left (fun h => absurd h.2 (by have := r7 i hi h.1; omega))
    · intro i hi
      obtain ⟨-, -, p3, p4⟩ := b1 i hi
      obtain ⟨-, -, q3, q4⟩ := b2 i hi
      refine ⟨?_, ?_⟩
      · rw [Bool.eq_iff_iff, q3, p3]; exact and_iff_left_of_imp (r7 i hi)
      · rw [Bool.eq_iff_iff, q4, p3, p4]
        exact or_iff_left (fun h => absurd h.2 (by have := r7 i hi h.1; omega))
    · obtain ⟨p1, -, -, -⟩ := b1 (sq r1 c1) ho
      obtain ⟨q1, -, -, -⟩ := b2 (sq r1 c1) ho
      rw [← Bool.not_eq_true, q1, p1]
      simp only [ne_eq, not_true_eq_false, and_false, false_or, hod]
      exact fun h => h.1
    · obtain ⟨p1, p2, -, -⟩ := b1 (sq r1 c1) ho
      obtain ⟨-, q2, -, -⟩ := b2 (sq r1 c1) ho
      rw [← Bool.not_eq_true, q2, p1, p2]
      simp only [ne_eq, not_true_eq_false, and_false, false_or, hod]
      exact fun h => h.1
    · intro hrow
      obtain ⟨p1, p2, -, -⟩ := b1 (sq r2 c2) hd
      obtain ⟨q1, q2, -, -⟩ := b2 (sq r2 c2) hd
      have h8 : 8 ≤ sq r2 c2 := by
        unfold onBoard at h2; unfold sq; omega
      have hm1 : g1.red.men.testBit (sq r2 c2) = true := p1.2 (Or.inr rfl)
      have hk1 : ¬ g1.red.kings.testBit (sq r2 c2) = true := by
        intro h
        have := p2.1 h
        simp [d2] at this
      refine ⟨q1.2 ⟨hm1, h8⟩, ?_⟩
      rw [← Bool.not_eq_true, q2]
      rintro (h | h)
      · exact hk1 h
      · have := h.2; omega
    · intro hrow
      obtain ⟨p1, -, -, -⟩ := b1 (sq r2 c2) hd
      obtain ⟨q1, q2, -, -⟩ := b2 (sq r2 c2) hd
      have h8 : sq r2 c2 < 8 := by
        unfold onBoard at h2; unfold sq; omega
      have hm1 : g1.red.men.testBit (sq r2 c2) = true := p1.2 (Or.inr rfl)
      refine ⟨q2.2 (Or.inr ⟨hm1, h8⟩), ?_⟩
      rw [← Bool.not_eq_true, q1]
      intro h
      have := h.2; omega
  · have ht1 : ¬ g1.turn = 0 := fun e => ht (t1 ▸ e)
    simp only [cur_player, cur_enemy, ht, ht1, ne_eq, not_false_eq_true, if_true] at b1 hnk
    simp only [player_in, enemy_in, cur_enemy, ht, ne_eq, not_false_eq_true, if_true]
    refine ⟨?_, ?_, ?_, ?_, ?_, ?_⟩
    · intro i hi hio hid
      obtain ⟨p1, p2, p3, p4⟩ := b1 i hi
      obtain ⟨q1, q2, q3, q4⟩ := b2 i hi
      simp only [hio, hid, not_false_eq_true, and_true, or_false] at p1 p2
      refine ⟨?_, ?_, ?_, ?_⟩
      · rw [Bool.eq_iff_iff, q1, p3]; exact and_iff_left_of_imp (r0 i)
      · rw [Bool.eq_iff_iff, q2, p3, p4]
        exact or_iff_left (fun h => absurd h.2 (by have := r0 i h.1; omega))
      · rw [Bool.eq_iff_iff, q3, p1]; exact and_iff_left_of_imp (r7 i hi)
      · rw [Bool.eq_iff_iff, q4, p1, p2]
        exact or_iff_left (fun h => absurd h.2 (by have := r7 i hi h.1; omega))
    · intro i hi
      obtain ⟨-, -, p3, p4⟩ := b1 i hi
      obtain ⟨q1, q2, -, -⟩ := b2 i hi
      refine ⟨?_, ?_⟩
      · rw [Bool.eq_iff_iff, q1, p3]; exact and_iff_left_of_imp (r0 i)
      · rw [Bool.eq_iff_iff, q2, p3, p4]
        exact or_iff_left (fun h => absurd h.2 (by have := r0 i h.1; omega))
    · obtain ⟨p1, -, -, -⟩ := b1 (sq r1 c1) ho
      obtain ⟨-, -, q3, -⟩ := b2 (sq r1 c1) ho
      rw [← Bool.not_eq_true, q3, p1]
      simp only [ne_eq, not_true_eq_false, and_false, false_or, hod]
      exact fun h => h.1
    · obtain ⟨p1, p2, -, -⟩ := b1 (sq r1 c1) ho
      obtain ⟨-, -, -, q4⟩ := b2 (sq r1 c1) ho
      rw [← Bool.not_eq_true, q4, p1, p2]
      simp only [ne_eq, not_true_eq_false, and_false, false_or, hod]
      exact fun h => h.1
    · intro hrow
      obtain ⟨p1, p2, -, -⟩ := b1 (sq r2 c2) hd
      obtain ⟨-, -, q3, q4⟩ := b2 (sq r2 c2) hd
      have h56 : sq r2 c2 < 56 := by
        unfold onBoard at h2; unfold sq; omega
      have hm1 : g1.black.men.testBit (sq r2 c2) = true := p1.2 (Or.inr rfl)
      have hk1 : ¬ g1.black.kings.testBit (sq r2 c2) = true := by
        intro h
        have := p2.1 h
        simp [d4] at this
      refine ⟨q3.2 ⟨hm1, h56⟩, ?_⟩
      rw [← Bool.not_eq_true, q4]
      rintro (h | h)
      · exact hk1 h
      · have := h.2; omega
    · intro hrow
      obtain ⟨p1, -, -, -⟩ := b1 (sq r2 c2) hd
      obtain ⟨-, -, q3, q4⟩ := b2 (sq r2 c2) hd
      have h56 : 56 ≤ sq r2 c2 := by
        unfold onBoard at h2; unfold sq; omega
      have hm1 : g1.black.men.testBit (sq r2 c2) = true := p1.2 (Or.inr rfl)
      refine ⟨q4.2 (Or.inr ⟨hm1, h56⟩), ?_⟩
      rw [← Bool.not_eq_true, q3]
      intro h
      have := h.2; omega

/-- The opening step 5,0 to 4,1 of a Red man. -/
theorem step_frame_witness :
    onBoard 5 0 ∧ valid_move initial 5 0 4 1 = some 1 ∧
    (4 : Int) - 5 = forward initial ∧ iabs (1 - 0) = 1 ∧
    ∃ g', move_piece initial 5 0 4 1 = some (1, g') ∧
      (∀ i, i < 64 → i ≠ sq 5 0 → i ≠ sq 4 1 →
        (g'.red.men.testBit i = initial.red.men.testBit i ∧
         g'.red.kings.testBit i = initial.red.kings.testBit i ∧
         g'.black.men.testBit i = initial.black.men.testBit i ∧
         g'.black.kings.testBit i = initial.black.kings.testBit i)) ∧
      (∀ i, i < 64 →
        ((enemy_in initial g').men.testBit i = (cur_enemy initial).men.testBit i ∧
         (enemy_in initial g').kings.testBit i = (cur_enemy initial).kings.testBit i)) ∧
      (player_in initial g').men.testBit (sq 5 0) = false ∧
      (player_in initial g').kings.testBit (sq 5 0) = false ∧
      ((4 : Int) ≠ (if initial.turn ≠ 0 then 7 else 0) →
        (player_in initial g').men.testBit (sq 4 1) = true ∧
        (player_in initial g').kings.testBit (sq 4 1) = false) ∧
      ((4 : Int) = (if initial.turn ≠ 0 then 7 else 0) →
        (player_in initial g').kings.testBit (sq 4 1) = true ∧
        (player_in initial g').men.testBit (sq 4 1) = false) :=
  ⟨by decide, by decide,
    step_frame initial 5 0 4 1 (by decide) (by decide) (by decide) (by decide) (by decide)
      (by decide)⟩

/-- Claim C7 (the code departs from it): in the opening position square (4,1) is
empty, yet `valid_move(4,1,3,2)` returns 1 and `move_piece` puts a thirteenth Red man
on (3,2). -/
theorem empty_origin_accepted :
    occupiedAt initial (sq 4 1) = false ∧
    valid_move initial 4 1 3 2 = some 1 ∧
    move_piece initial 4 1 3 2 =
      some (1, { red := { men := initial.red.men ||| 2 ^ 26, kings := 0 },
                 black := initial.black, turn := 1 }) ∧
    pieceCount initial.red.men = 12 ∧ pieceCount (initial.red.men ||| 2 ^ 26) = 13 := by
  decide

/-- Claim C8 (the code departs from it): a Red man at (3,3), not a king, with a Black
man behind it at (4,4): `valid_move(3,3,5,5)` returns 2 although the row changes by
`+2`, which is backward for Red. -/
theorem backward_jump_accepted :
    onBoard 3 3 ∧ backward_state.turn = 0 ∧
    backward_state.red.men.testBit (sq 3 3) = true ∧
    backward_state.red.kings.testBit (sq 3 3) = false ∧
    valid_move backward_state 3 3 5 5 = some 2 ∧ (5 : Int) - 3 = 2 ∧
    (5 : Int) - 3 ≠ 2 * forward backward_state := by
  decide

/-- Claim C9 (the code departs from it): the origin is never range-checked, so in the
opening position the call `move_piece(8,0,4,1)` reaches `is_bit_set(red.kings, 8, 0)`,
whose shift amount is 64: the run is undefined. -/
theorem origin_not_range_checked :
    ¬ onBoard 8 0 ∧ (8 : Int) * 8 + 0 = 64 ∧ get_bit 8 0 = none ∧
    is_occupied initial 4 1 = some 0 ∧
    is_bit_set (cur_player initial).kings 8 0 = none ∧
    valid_move initial 8 0 4 1 = none ∧ move_piece initial 8 0 4 1 = none := by
  decide

/-- Claim C13: from the state produced by `init_game`, `move_piece(5,0,4,1)` returns 1;
afterwards it is Black's turn, square (5,0) is clear in all four bitboards, square
(4,1) is set in `red.men` only, and every other square is as in the opening position. -/
theorem opening_step (g : Game) :
    ∃ g0 g', init_game g = some g0 ∧ move_piece g0 5 0 4 1 = some (1, g') ∧ g'.turn = 1 ∧
      (g'.red.men.testBit (sq 5 0) = false ∧ g'.red.kings.testBit (sq 5 0) = false ∧
       g'.black.men.testBit (sq 5 0) = false ∧ g'.black.kings.testBit (sq 5 0) = false) ∧
      (g'.red.men.testBit (sq 4 1) = true ∧ g'.red.kings.testBit (sq 4 1) = false ∧
       g'.black.men.testBit (sq 4 1) = false ∧ g'.black.kings.testBit (sq 4 1) = false) ∧
      (∀ i, i < 64 → i ≠ sq 5 0 → i ≠ sq 4 1 →
        (g'.red.men.testBit i = g0.red.men.testBit i ∧
         g'.red.kings.testBit i = g0.red.kings.testBit i ∧
         g'.black.men.testBit i = g0.black.men.testBit i ∧
         g'.black.kings.testBit i = g0.black.kings.testBit i)) ∧
      g'.red.men < 2 ^ 64 ∧ g'.red.kings = 0 ∧ g'.black.men = g0.black.men ∧ g'.black.kings = 0 :=
  ⟨initial, { red := { men := 0x55AA540200000000, kings := 0 }, black := initial.black, turn := 1 },
    init_game_eq g, by decide, rfl, by decide, by decide, by decide, by decide, rfl, rfl, rfl⟩

/-- Claim C14: with a lone Red man at (3,3), a lone Black man at (2,2) and Red to move,
`valid_move(3,3,1,1)` returns 2 and `move_piece(3,3,1,1)` returns 1, leaving exactly a
Red man at (1,1), Black to move, `has_pieces(black)` zero and `has_pieces(red)`
non-zero, so the win check of the main loop announces Red. -/
theorem jump_scenario :
    jump_state.red.men = 2 ^ sq 3 3 ∧ jump_state.black.men = 2 ^ sq 2 2 ∧
    jump_state.red.kings = 0 ∧ jump_state.black.kings = 0 ∧ jump_state.turn = 0 ∧
    valid_move jump_state 3 3 1 1 = some 2 ∧
    move_piece jump_state 3 3 1 1 = some (1, jump_result) ∧
    jump_result.red.men = 2 ^ sq 1 1 ∧ jump_result.red.kings = 0 ∧
    jump_result.black.men = 0 ∧ jump_result.black.kings = 0 ∧ jump_result.turn = 1 ∧
    has_pieces jump_result.black = 0 ∧ has_pieces jump_result.red ≠ 0 ∧
    win_check jump_result = some Winner.red := by
  decide

theorem sq_inj {r c r' c' : Int} (h : onBoard r c) (h' : onBoard r' c')
    (e : sq r' c' = sq r c) : r' = r ∧ c' = c := by
  unfold onBoard at h h'; unfold sq at e; omega

theorem sq_div_mod {i : Nat} (hi : i < 64) :
    onBoard ((i / 8 : Nat) : Int) ((i % 8 : Nat) : Int) ∧
      sq ((i / 8 : Nat) : Int) ((i % 8 : Nat) : Int) = i := by
  unfold onBoard sq; omega

theorem testBit_lt_64 {b i : Nat} (hb : b < 2 ^ 64) (h : b.testBit i = true) : i < 64 := by
  by_contra hge
  have h1 : 2 ^ i ≤ b := Nat.testBit_implies_ge h
  have h2 : (2 : Nat) ^ 64 ≤ 2 ^ i := Nat.pow_le_pow_right (by decide) (by omega)
  omega

theorem is_bit_set_eq_one (b : Nat) {r c : Int} (h : onBoard r c) :
    is_bit_set b r c = some 1 ↔ b.testBit (sq r c) = true := by
  rw [is_bit_set_on b h]
  cases b.testBit (sq r c) <;> simp

theorem is_bit_set_eq_zero (b : Nat) {r c : Int} (h : onBoard r c) :
    is_bit_set b r c = some 0 ↔ b.testBit (sq r c) = false := by
  rw [is_bit_set_on b h]
  cases b.testBit (sq r c) <;> simp

/-- Claim C16: for squares on the board, `is_bit_set` is true at a square after
`set_bit` there and false after `clear_bit` there; at any other square neither
changes `is_bit_set`; the map from a square to `r * 8 + c` is injective on the board
and `get_bit` returns the value with exactly that one bit set. -/
theorem bitboard_helper_laws (b : Bitboard) (r c r' c' : Int)
    (h : onBoard r c) (h' : onBoard r' c') :
    (∃ b1, set_bit b r c = some b1 ∧ is_bit_set b1 r c = some 1 ∧
      ((r', c') ≠ (r, c) → is_bit_set b1 r' c' = is_bit_set b r' c')) ∧
    (∃ b2, clear_bit b r c = some b2 ∧ is_bit_set b2 r c = some 0 ∧
      ((r', c') ≠ (r, c) → is_bit_set b2 r' c' = is_bit_set b r' c')) ∧
    (∃ v, is_bit_set b r' c' = some v ∧ (v = 0 ∨ v = 1)) ∧
    (r' * 8 + c' = r * 8 + c → (r', c') = (r, c)) ∧
    (∃ x, get_bit r c = some x ∧ ∀ i, x.testBit i = decide (i = sq r c)) := by
  have hs := sq_lt h
  have hs' := sq_lt h'
  have hne : (r', c') ≠ (r, c) → sq r' c' ≠ sq r c := by
    intro hn e
    obtain ⟨e1, e2⟩ := sq_inj h h' e
    exact hn (by rw [e1, e2])
  refine ⟨⟨_, set_bit_on b h, ?_, ?_⟩, ⟨_, clear_bit_on b h, ?_, ?_⟩, ?_, ?_, ⟨_, get_bit_on h, ?_⟩⟩
  · rw [is_bit_set_eq_one _ h, testBit_set]; exact Or.inr rfl
  · intro hn
    rw [is_bit_set_on _ h', is_bit_set_on _ h']
    have : (b ||| 2 ^ sq r c).testBit (sq r' c') = b.testBit (sq r' c') := by
      rw [Bool.eq_iff_iff, testBit_set]
      exact or_iff_left (hne hn)
    rw [this]
  · rw [is_bit_set_eq_zero _ h, ← Bool.not_eq_true, testBit_clear _ hs hs]
    exact fun hc => hc.2 rfl
  · intro hn
    rw [is_bit_set_on _ h', is_bit_set_on _ h']
    have : (b &&& bnot64 (2 ^ sq r c)).testBit (sq r' c') = b.testBit (sq r' c') := by
      rw [Bool.eq_iff_iff, testBit_clear _ hs hs']
      exact and_iff_left (hne hn)
    rw [this]
  · rw [is_bit_set_on _ h']
    cases b.testBit (sq r' c')
    · exact ⟨0, rfl, Or.inl rfl⟩
    · exact ⟨1, rfl, Or.inr rfl⟩
  · intro e
    have : r' = r ∧ c' = c := by unfold onBoard at h h'; omega
    rw [this.1, this.2]
  · intro i
    rw [Nat.testBit_two_pow]
    exact decide_eq_decide.2 eq_comm

/-- The helper laws at squares (2,3) and (5,6) of the opening position's Red men. -/
theorem bitboard_helper_laws_witness :
    onBoard 2 3 ∧ onBoard 5 6 ∧
    (∃ b1, set_bit initial.red.men 2 3 = some b1 ∧ is_bit_set b1 2 3 = some 1 ∧
      (((5 : Int), (6 : Int)) ≠ (2, 3) → is_bit_set b1 5 6 = is_bit_set initial.red.men 5 6)) :=
  ⟨by decide, by decide,
    (bitboard_helper_laws initial.red.men 2 3 5 6 (by decide) (by decide)).1⟩

/-- Claim C17: for a player whose bitboards are 64-bit values, `has_pieces` is
non-zero exactly when some square of the board has its bit set in `men` or in
`kings`, and zero exactly when no square has. -/
theorem has_pieces_iff (p : Player) (hm : p.men < 2 ^ 64) (hk : p.kings < 2 ^ 64) :
    (has_pieces p ≠ 0 ↔
      ∃ r c : Int, onBoard r c ∧ (is_bit_set p.men r c = some 1 ∨ is_bit_set p.kings r c = some 1)) ∧
    (has_pieces p = 0 ↔
      ∀ r c : Int, onBoard r c → is_bit_set p.men r c = some 0 ∧ is_bit_set p.kings r c = some 0) := by
  have key : has_pieces p ≠ 0 ↔
      ∃ r c : Int, onBoard r c ∧
        (is_bit_set p.men r c = some 1 ∨ is_bit_set p.kings r c = some 1) := by
    constructor
    · intro hp
      have hnz : p.men ||| p.kings ≠ 0 := by
        intro e; apply hp; simp [has_pieces, e]
      obtain ⟨i, hi⟩ := Nat.ne_zero_implies_bit_true hnz
      rw [Nat.testBit_or, Bool.or_eq_true] at hi
      have hi64 : i < 64 := by
        rcases hi with hi | hi
        · exact testBit_lt_64 hm hi
        · exact testBit_lt_64 hk hi
      obtain ⟨hb, hsq⟩ := sq_div_mod hi64
      refine ⟨_, _, hb, ?_⟩
      rw [is_bit_set_eq_one _ hb, is_bit_set_eq_one _ hb, hsq]
      exact hi
    · rintro ⟨r, c, hb, hset⟩ hp
      rw [is_bit_set_eq_one _ hb, is_bit_set_eq_one _ hb] at hset
      have hz : p.men ||| p.kings = 0 := by
        by_contra hnz; simp [has_pieces, hnz] at hp
      have := congrArg (fun x => x.testBit (sq r c)) hz
      simp only [Nat.testBit_or, Nat.zero_testBit, Bool.or_eq_false_iff] at this
      rcases hset with hs | hs
      · rw [this.1] at hs; exact absurd hs (by decide)
      · rw [this.2] at hs; exact absurd hs (by decide)
  refine ⟨key, ?_⟩
  rw [← not_iff_not, ← ne_eq, key]
  constructor
  · rintro ⟨r, c, hb, hset⟩ hall
    obtain ⟨h1, h2⟩ := hall r c hb
    rcases hset with hs | hs
    · rw [h1] at hs; exact absurd hs (by decide)
    · rw [h2] at hs; exact absurd hs (by decide)
  · intro hnot
    by_contra hex
    apply hnot
    intro r c hb
    rw [is_bit_set_eq_zero _ hb, is_bit_set_eq_zero _ hb]
    constructor
    · by_contra hne
      exact hex ⟨r, c, hb, Or.inl ((is_bit_set_eq_one _ hb).2 (by simpa using hne))⟩
    · by_contra hne
      exact hex ⟨r, c, hb, Or.inr ((is_bit_set_eq_one _ hb).2 (by simpa using hne))⟩

/-- Red in the opening position has pieces, for instance on square (5,0). -/
theorem has_pieces_iff_witness :
    initial.red.men < 2 ^ 64 ∧ initial.red.kings < 2 ^ 64 ∧ has_pieces initial.red = 1 ∧
    is_bit_set initial.red.men 5 0 = some 1 ∧
    (has_pieces initial.red ≠ 0 ↔
      ∃ r c : Int, onBoard r c ∧
        (is_bit_set initial.red.men r c = some 1 ∨ is_bit_set initial.red.kings r c = some 1)) :=
  ⟨by decide, by decide, by decide, by decide,
    (has_pieces_iff initial.red (by decide) (by decide)).1⟩

theorem get_bit_of_is_bit_set {b : Nat} {r c k : Int} (h : is_bit_set b r c = some k) :
    ∃ x, get_bit r c = some x := by
  unfold is_bit_set at h
  obtain ⟨x, hx, -⟩ := Option.bind_eq_some.1 h
  exact ⟨x, hx⟩

theorem valid_move_cases {g : Game} {r1 c1 r2 c2 mt : Int}
    (h : valid_move g r1 c1 r2 c2 = some mt) :
    mt = 0 ∨ (onBoard r2 c2 ∧ (∃ x, get_bit r1 c1 = some x) ∧
      (mt = 1 ∨ (mt = 2 ∧ ∃ sr sc y, int_chk (r1 + r2) = some sr ∧ int_chk (c1 + c2) = some sc ∧
        get_bit (Int.tdiv sr 2) (Int.tdiv sc 2) = some y))) := by
  unfold valid_move at h
  by_cases hb : r2 < 0 ∨ r2 > 7 ∨ c2 < 0 ∨ c2 > 7
  · rw [if_pos hb] at h; exact Or.inl (Option.some.inj h).symm
  · rw [if_neg hb] at h
    have h2 : onBoard r2 c2 := by unfold onBoard; omega
    obtain ⟨occ, -, h⟩ := Option.bind_eq_some.1 h
    by_cases ho : occ ≠ 0
    · rw [if_pos ho] at h; exact Or.inl (Option.some.inj h).symm
    · rw [if_neg ho] at h
      simp only at h
      obtain ⟨dr, -, h⟩ := Option.bind_eq_some.1 h
      obtain ⟨dc, -, h⟩ := Option.bind_eq_some.1 h
      obtain ⟨k, hk, h⟩ := Option.bind_eq_some.1 h
      obtain ⟨adr, -, h⟩ := Option.bind_eq_some.1 h
      obtain ⟨step, -, h⟩ := Option.bind_eq_some.1 h
      have hx := get_bit_of_is_bit_set hk
      by_cases hs : step = true
      · rw [if_pos hs] at h
        exact Or.inr ⟨h2, hx, Or.inl (Option.some.inj h).symm⟩
      · rw [if_neg hs] at h
        obtain ⟨jump, -, h⟩ := Option.bind_eq_some.1 h
        by_cases hj : jump = true
        · rw [if_pos hj] at h
          obtain ⟨sr, hsr, h⟩ := Option.bind_eq_some.1 h
          obtain ⟨sc, hsc, h⟩ := Option.bind_eq_some.1 h
          obtain ⟨e, he, h⟩ := Option.bind_eq_some.1 h
          obtain ⟨y, hy⟩ := get_bit_of_is_bit_set he
          by_cases hee : e ≠ 0
          · rw [if_pos hee] at h
            exact Or.inr ⟨h2, hx, Or.inr ⟨(Option.some.inj h).symm, sr, sc, y, hsr, hsc, hy⟩⟩
          · rw [if_neg hee] at h; exact Or.inl (Option.some.inj h).symm
        · rw [if_neg hj] at h; exact Or.inl (Option.some.inj h).symm

theorem move_piece_relocate_defined (g : Game) {mt r1 c1 r2 c2 : Int} {x : Nat}
    (hx : get_bit r1 c1 = some x) (h2 : onBoard r2 c2)
    (hj : mt = 2 → ∃ sr sc y, int_chk (r1 + r2) = some sr ∧ int_chk (c1 + c2) = some sc ∧
        get_bit (Int.tdiv sr 2) (Int.tdiv sc 2) = some y) :
    ∃ g1, move_piece_relocate g mt r1 c1 r2 c2 = some g1 ∧ g1.turn = g.turn ∧
      ((cur_player g1).men.testBit (sq r2 c2) = true ∨
       (cur_player g1).kings.testBit (sq r2 c2) = true) := by
  simp only [move_piece_relocate, is_bit_set, clear_bit, set_bit, hx, get_bit_on h2,
    Option.some_bind]
  by_cases hm : mt = 2
  · obtain ⟨sr, sc, y, hsr, hsc, hy⟩ := hj hm
    simp only [hm, if_true, hsr, hsc, hy, Option.some_bind]
    split
    · refine ⟨_, rfl, turn_put _ _ _, ?_⟩
      rw [cur_player_put]; right; simp only; rw [testBit_set]; exact Or.inr rfl
    · refine ⟨_, rfl, turn_put _ _ _, ?_⟩
      rw [cur_player_put]; left; simp only; rw [testBit_set]; exact Or.inr rfl
  · simp only [hm, if_false, Option.some_bind]
    split
    · refine ⟨_, rfl, turn_put _ _ _, ?_⟩
      rw [cur_player_put]; right; simp only; rw [testBit_set]; exact Or.inr rfl
    · refine ⟨_, rfl, turn_put _ _ _, ?_⟩
      rw [cur_player_put]; left; simp only; rw [testBit_set]; exact Or.inr rfl

theorem move_piece_of_accepted {g : Game} {r1 c1 r2 c2 mt : Int}
    (h : valid_move g r1 c1 r2 c2 = some mt) (hne : mt ≠ 0) :
    onBoard r2 c2 ∧ (mt = 1 ∨ mt = 2) ∧
    ∃ g1 g2, move_piece_relocate g mt r1 c1 r2 c2 = some g1 ∧ g1.turn = g.turn ∧
      ((cur_player g1).men.testBit (sq r2 c2) = true ∨
       (cur_player g1).kings.testBit (sq r2 c2) = true) ∧
      crown_king g1 = some g2 ∧ crowned g1 g2 ∧
      move_piece g r1 c1 r2 c2 = some (1, { g2 with turn := if g2.turn = 0 then 1 else 0 }) := by
  rcases valid_move_cases h with h0 | ⟨h2, ⟨x, hx⟩, hmt⟩
  · exact absurd h0 hne
  · have hj : mt = 2 → ∃ sr sc y, int_chk (r1 + r2) = some sr ∧ int_chk (c1 + c2) = some sc ∧
        get_bit (Int.tdiv sr 2) (Int.tdiv sc 2) = some y := by
      intro e
      rcases hmt with h1 | ⟨-, hh⟩
      · rw [h1] at e; exact absurd e (by decide)
      · exact hh
    obtain ⟨g1, e1, t1, hd⟩ := move_piece_relocate_defined g hx h2 hj
    obtain ⟨g2, e2, s2⟩ := crown_king_spec g1
    refine ⟨h2, ?_, g1, g2, e1, t1, hd, e2, s2, ?_⟩
    · rcases hmt with h1 | ⟨h2', -⟩
      · exact Or.inl h1
      · exact Or.inr h2'
    · simp only [move_piece, h, Option.some_bind, if_neg hne, e1, e2]

theorem move_piece_eq_some {g g' : Game} {r1 c1 r2 c2 ret : Int}
    (h : move_piece g r1 c1 r2 c2 = some (ret, g')) :
    (ret = 0 ∧ g' = g ∧ valid_move g r1 c1 r2 c2 = some 0) ∨
    (ret = 1 ∧ ∃ mt, valid_move g r1 c1 r2 c2 = some mt ∧ mt ≠ 0) := by
  have h' := h
  unfold move_piece at h'
  obtain ⟨mt, hv, h'⟩ := Option.bind_eq_some.1 h'
  by_cases h0 : mt = 0
  · rw [if_pos h0] at h'
    have := Prod.mk.inj (Option.some.inj h')
    exact Or.inl ⟨this.1.symm, this.2.symm, h0 ▸ hv⟩
  · obtain ⟨-, -, g1, g2, -, -, -, -, -, e⟩ := move_piece_of_accepted hv h0
    rw [e] at h
    have := Prod.mk.inj (Option.some.inj h)
    exact Or.inr ⟨this.1.symm, mt, hv, h0⟩

/-- Claim C11: `move_piece` returns 1 exactly when `valid_move` returns 1 or 2 on
the same state and move; when it returns 1 the turn afterwards is the other side
(0 becomes 1, non-zero becomes 0); when it returns 0 the turn is unchanged; it
returns nothing but 0 or 1, and returns for every origin on the board. -/
theorem move_piece_result (g : Game) (r1 c1 r2 c2 : Int) :
    ((∃ g', move_piece g r1 c1 r2 c2 = some (1, g')) ↔
      (valid_move g r1 c1 r2 c2 = some 1 ∨ valid_move g r1 c1 r2 c2 = some 2)) ∧
    (∀ g', move_piece g r1 c1 r2 c2 = some (1, g') → g'.turn = if g.turn = 0 then 1 else 0) ∧
    (∀ g', move_piece g r1 c1 r2 c2 = some (0, g') → g'.turn = g.turn) ∧
    (∀ ret g', move_piece g r1 c1 r2 c2 = some (ret, g') → ret = 0 ∨ ret = 1) ∧
    (onBoard r1 c1 → ∃ ret g', move_piece g r1 c1 r2 c2 = some (ret, g')) := by
  refine ⟨⟨?_, ?_⟩, ?_, ?_, ?_, ?_⟩
  · rintro ⟨g', h⟩
    rcases move_piece_eq_some h with ⟨h0, -, -⟩ | ⟨-, mt, hv, hne⟩
    · exact absurd h0 (by decide)
    · obtain ⟨-, hmt, -⟩ := move_piece_of_accepted hv hne
      rcases hmt with e | e
      · exact Or.inl (e ▸ hv)
      · exact Or.inr (e ▸ hv)
  · rintro (hv | hv)
    · obtain ⟨-, -, g1, g2, -, -, -, -, -, e⟩ := move_piece_of_accepted hv (by decide)
      exact ⟨_, e⟩
    · obtain ⟨-, -, g1, g2, -, -, -, -, -, e⟩ := move_piece_of_accepted hv (by decide)
      exact ⟨_, e⟩
  · intro g' h
    rcases move_piece_eq_some h with ⟨h0, -, -⟩ | ⟨-, mt, hv, hne⟩
    · exact absurd h0 (by decide)
    · obtain ⟨-, -, g1, g2, -, t1, -, -, s2, e⟩ := move_piece_of_accepted hv hne
      rw [e] at h
      have hg := (Prod.mk.inj (Option.some.inj h)).2
      rw [← hg]
      simp only [s2.1, t1]
  · intro g' h
    rcases move_piece_eq_some h with ⟨-, hg, -⟩ | ⟨h1, -⟩
    · rw [hg]
    · exact absurd h1 (by decide)
  · intro ret g' h
    rcases move_piece_eq_some h with ⟨h0, -, -⟩ | ⟨h1, -⟩
    · exact Or.inl h0
    · exact Or.inr h1
  · intro h1
    by_cases hv : valid_move_spec g r1 c1 r2 c2 = 0
    · exact ⟨0, g, move_piece_illegal g (by rw [valid_move_eq_spec g r2 c2 h1, hv])⟩
    · obtain ⟨g1, g2, -, -, -, -, e⟩ := move_piece_spec g h1 hv
      exact ⟨1, _, e⟩

/-- The opening step 5,0 to 4,1 is accepted by `valid_move` and `move_piece` returns 1. -/
theorem move_piece_result_witness :
    valid_move initial 5 0 4 1 = some 1 ∧
    (∃ g', move_piece initial 5 0 4 1 = some (1, g')) ∧
    (onBoard 5 0 → ∃ ret g', move_piece initial 5 0 4 1 = some (ret, g')) :=
  ⟨by decide,
    (move_piece_result initial 5 0 4 1).1.2 (Or.inl (by decide)),
    (move_piece_result initial 5 0 4 1).2.2.2.2⟩

theorem has_pieces_of_testBit {p : Player} {i : Nat}
    (h : p.men.testBit i = true ∨ p.kings.testBit i = true) : has_pieces p ≠ 0 := by
  have hnz : p.men ||| p.kings ≠ 0 := by
    intro e
    have := congrArg (fun x => x.testBit i) e
    simp only [Nat.testBit_or, Nat.zero_testBit, Bool.or_eq_false_iff] at this
    rcases h with h | h
    · rw [this.1] at h; exact absurd h (by decide)
    · rw [this.2] at h; exact absurd h (by decide)
  simp [has_pieces, hnz]

theorem mover_has_pieces {g g' : Game} {r1 c1 r2 c2 : Int}
    (h : move_piece g r1 c1 r2 c2 = some (1, g')) : has_pieces (player_in g g') ≠ 0 := by
  rcases move_piece_eq_some h with ⟨h0, -, -⟩ | ⟨-, mt, hv, hne⟩
  · exact absurd h0 (by decide)
  · obtain ⟨h2, -, g1, g2, -, t1, hd, -, s2, e⟩ := move_piece_of_accepted hv hne
    rw [e] at h
    have hg := (Prod.mk.inj (Option.some.inj h)).2
    rw [← hg]
    obtain ⟨o1, o2⟩ := crowned_occupancy s2 (sq_lt h2)
    rw [testBit_occupancy, testBit_occupancy] at o1 o2
    apply has_pieces_of_testBit (i := sq r2 c2)
    by_cases ht : g.turn = 0
    · have ht1 : g1.turn = 0 := t1.trans ht
      simp only [cur_player, ht1, ne_eq, not_true_eq_false, if_false] at hd
      simp only [player_in, ht, ne_eq, not_true_eq_false, if_false]
      exact o1.2 hd
    · have ht1 : ¬ g1.turn = 0 := fun e => ht (t1 ▸ e)
      simp only [cur_player, ht1, ne_eq, not_false_eq_true, if_true] at hd
      simp only [player_in, ht, ne_eq, not_false_eq_true, if_true]
      exact o2.2 hd

theorem play_keeps_a_side (moves : List (Int × Int × Int × Int)) (g gf : Game)
    (hg : ¬ (has_pieces g.red = 0 ∧ has_pieces g.black = 0))
    (h : play g moves = some gf) :
    ¬ (has_pieces gf.red = 0 ∧ has_pieces gf.black = 0) := by
  induction moves generalizing g with
  | nil =>
    have : g = gf := Option.some.inj h
    rw [← this]; exact hg
  | cons m rest ih =>
    obtain ⟨r1, c1, r2, c2⟩ := m
    simp only [play] at h
    obtain ⟨res, hm, hrest⟩ := Option.bind_eq_some.1 h
    obtain ⟨ret, g'⟩ := res
    refine ih g' ?_ hrest
    rcases move_piece_eq_some hm with ⟨-, hg', -⟩ | ⟨h1, -⟩
    · rw [hg']; exact hg
    · rw [h1] at hm
      have hp := mover_has_pieces hm
      intro hb
      apply hp
      unfold player_in
      split
      · exact hb.2
      · exact hb.1

/-- Claim C12: after every call of `move_piece` that returns 1 the side that moved
has at least one piece (`has_pieces` of that side is non-zero); hence in every state
reached from `init_game` by a sequence of `move_piece` calls, Red and Black are never
both without pieces. -/
theorem never_both_empty :
    (∀ (g g' : Game) (r1 c1 r2 c2 : Int),
      move_piece g r1 c1 r2 c2 = some (1, g') → has_pieces (player_in g g') ≠ 0) ∧
    (∀ (g g0 gf : Game) (moves : List (Int × Int × Int × Int)),
      init_game g = some g0 → play g0 moves = some gf →
      ¬ (has_pieces gf.red = 0 ∧ has_pieces gf.black = 0)) := by
  refine ⟨fun g g' r1 c1 r2 c2 h => mover_has_pieces h, ?_⟩
  intro g g0 gf moves hi hp
  have e : g0 = initial := (Option.some.inj ((init_game_eq g).symm.trans hi)).symm
  subst e
  exact play_keeps_a_side moves initial gf (by decide) hp

/-- Two moves from the opening position: Red steps 5,0 to 4,1, Black steps 2,1 to 3,0. -/
theorem never_both_empty_witness :
    init_game initial = some initial ∧
    play initial [(5, 0, 4, 1), (2, 1, 3, 0)] =
      some { red := { men := 0x55AA540200000000, kings := 0 },
             black := { men := 0x01A855AA, kings := 0 }, turn := 0 } ∧
    ¬ (has_pieces (Player.mk 0x55AA540200000000 0) = 0 ∧
       has_pieces (Player.mk 0x01A855AA 0) = 0) :=
  ⟨by decide, by decide,
    never_both_empty.2 initial initial
      { red := { men := 0x55AA540200000000, kings := 0 },
        black := { men := 0x01A855AA, kings := 0 }, turn := 0 }
      [(5, 0, 4, 1), (2, 1, 3, 0)] (by decide) (by decide)⟩

theorem occupiedAt_iff (g : Game) (i : Nat) :
    occupiedAt g i = true ↔
      (occupancy (cur_player g)).testBit i = true ∨ (occupancy (cur_enemy g)).testBit i = true := by
  simp only [occupiedAt, testBit_occupancy, Bool.or_eq_true, cur_player, cur_enemy]
  split <;> tauto

theorem occupiedAt_iff_in (g g' : Game) (i : Nat) :
    occupiedAt g' i = true ↔
      (occupancy (player_in g g')).testBit i = true ∨
      (occupancy (enemy_in g g')).testBit i = true := by
  simp only [occupiedAt, testBit_occupancy, Bool.or_eq_true, player_in, enemy_in]
  split <;> tauto

theorem player_in_flip {g g2 : Game} (t : g2.turn = g.turn) (x : Int) :
    player_in g { g2 with turn := x } = cur_player g2 ∧
    enemy_in g { g2 with turn := x } = cur_enemy g2 := by
  simp only [player_in, enemy_in, cur_player, cur_enemy, t]
  exact ⟨trivial, trivial⟩

theorem crowned_cur {g1 g2 : Game} (hc : crowned g1 g2) {i : Nat} (hi : i < 64) :
    ((occupancy (cur_player g2)).testBit i = true ↔
      (occupancy (cur_player g1)).testBit i = true) ∧
    ((occupancy (cur_enemy g2)).testBit i = true ↔
      (occupancy (cur_enemy g1)).testBit i = true) ∧
    ((cur_player g1).kings.testBit i = true → (cur_player g2).kings.testBit i = true) := by
  obtain ⟨o1, o2⟩ := crowned_occupancy hc hi
  obtain ⟨-, p2, -, p4⟩ := hc.2 i hi
  have t := hc.1
  simp only [cur_player, cur_enemy, t]
  split
  · exact ⟨o2, o1, fun h => p4.2 (Or.inl h)⟩
  · exact ⟨o1, o2, fun h => p2.2 (Or.inl h)⟩

theorem relocated_occupancy {g g1 : Game} {J : Prop} {o d m : Nat}
    (hr : relocated g J o d m g1) {i : Nat} (hi : i < 64) :
    ((occupancy (cur_player g1)).testBit i = true ↔
      ((occupancy (cur_player g)).testBit i = true ∧ i ≠ o) ∨ i = d) ∧
    ((occupancy (cur_enemy g1)).testBit i = true ↔
      (occupancy (cur_enemy g)).testBit i = true ∧ ¬ (J ∧ i = m)) ∧
    ((cur_player g).kings.testBit o = true → i = d →
      (cur_player g1).kings.testBit i = true) := by
  obtain ⟨p1, p2, p3, p4⟩ := hr.2 i hi
  simp only [testBit_occupancy, p1, p2, p3, p4]
  clear p1 p2 p3 p4 hr
  refine ⟨?_, ?_, ?_⟩
  · cases (cur_player g).kings.testBit o <;> simp <;> tauto
  · tauto
  · intro hk hid; exact Or.inr ⟨hk, hid⟩

theorem move_piece_occupancy (g : Game) {r1 c1 r2 c2 : Int} (h1 : onBoard r1 c1)
    (hv : valid_move_spec g r1 c1 r2 c2 ≠ 0) :
    ∃ g', move_piece g r1 c1 r2 c2 = some (1, g') ∧ ∀ i, i < 64 →
      ((occupancy (player_in g g')).testBit i = true ↔
        ((occupancy (cur_player g)).testBit i = true ∧ i ≠ sq r1 c1) ∨ i = sq r2 c2) ∧
      ((occupancy (enemy_in g g')).testBit i = true ↔
        (occupancy (cur_enemy g)).testBit i = true ∧
          ¬ (valid_move_spec g r1 c1 r2 c2 = 2 ∧ i = sq ((r1 + r2) / 2) ((c1 + c2) / 2))) ∧
      ((cur_player g).kings.testBit (sq r1 c1) = true → i = sq r2 c2 →
        (player_in g g').kings.testBit i = true) := by
  obtain ⟨g1, g2, -, s1, -, s2, e⟩ := move_piece_spec g h1 hv
  refine ⟨_, e, ?_⟩
  intro i hi
  obtain ⟨a1, a2, a3⟩ := relocated_occupancy s1 hi
  obtain ⟨b1, b2, b3⟩ := crowned_cur s2 hi
  obtain ⟨e1, e2⟩ := player_in_flip (s2.1.trans s1.1) (if g2.turn = 0 then 1 else 0)
  rw [e1, e2]
  exact ⟨b1.trans a1, b2.trans a2, fun hk hid => b3 (a3 hk hid)⟩

theorem pieceCount_move {b b' o d : Nat} (ho : o < 64) (hd : d < 64)
    (hbo : b.testBit o = true) (hbd : b.testBit d = false)
    (h : ∀ i, i < 64 → (b'.testBit i = true ↔ (b.testBit i = true ∧ i ≠ o) ∨ i = d)) :
    pieceCount b' = pieceCount b := by
  unfold pieceCount
  have hmem : o ∈ (Finset.range 64).filter (fun i => b.testBit i = true) := by
    simp only [Finset.mem_filter, Finset.mem_range]; exact ⟨ho, hbo⟩
  have hnot : d ∉ ((Finset.range 64).filter (fun i => b.testBit i = true)).erase o := by
    simp only [Finset.mem_filter, Finset.mem_range, Finset.mem_erase, hbd, Bool.false_eq_true,
      and_false, not_false_eq_true]
  have he : (Finset.range 64).filter (fun i => b'.testBit i = true) =
      insert d (((Finset.range 64).filter (fun i => b.testBit i = true)).erase o) := by
    ext i
    simp only [Finset.mem_filter, Finset.mem_range, Finset.mem_erase, Finset.mem_insert]
    constructor
    · rintro ⟨hi, hb'⟩
      rcases (h i hi).1 hb' with ⟨h1, h2⟩ | h3
      · exact Or.inr ⟨h2, hi, h1⟩
      · exact Or.inl h3
    · rintro (h3 | ⟨h2, hi, h1⟩)
      · exact ⟨h3 ▸ hd, (h i (h3 ▸ hd)).2 (Or.inr h3)⟩
      · exact ⟨hi, (h i hi).2 (Or.inl ⟨h1, h2⟩)⟩
  rw [he, Finset.card_insert_of_not_mem hnot, Finset.card_erase_of_mem hmem]
  have := Finset.card_pos.2 ⟨o, hmem⟩
  omega

theorem accepted_spec {g : Game} {r1 c1 r2 c2 : Int} (h1 : onBoard r1 c1)
    (hacc : valid_move g r1 c1 r2 c2 = some 1 ∨ valid_move g r1 c1 r2 c2 = some 2) :
    valid_move_spec g r1 c1 r2 c2 ≠ 0 := by
  rw [valid_move_eq_spec g r2 c2 h1] at hacc
  rcases hacc with h | h
  · rw [Option.some.inj h]; decide
  · rw [Option.some.inj h]; decide

/-- Claim C18: in a state satisfying the disjointness invariant, for a move accepted
by `valid_move` whose origin is on the board and holds a man or king of the side to
move, `move_piece` succeeds and afterwards the mover has as many pieces as before,
the origin square is empty, the destination holds a piece of the mover, and that
piece is a king if the piece at the origin was a king. -/
theorem mover_conserved (g : Game) (r1 c1 r2 c2 : Int) (hd : disjoint g) (h1 : onBoard r1 c1)
    (hacc : valid_move g r1 c1 r2 c2 = some 1 ∨ valid_move g r1 c1 r2 c2 = some 2)
    (hpiece : (cur_player g).men.testBit (sq r1 c1) = true ∨
      (cur_player g).kings.testBit (sq r1 c1) = true) :
    ∃ g', move_piece g r1 c1 r2 c2 = some (1, g') ∧
      pieceCount (occupancy (player_in g g')) = pieceCount (occupancy (cur_player g)) ∧
      occupiedAt g' (sq r1 c1) = false ∧
      (occupancy (player_in g g')).testBit (sq r2 c2) = true ∧
      ((cur_player g).kings.testBit (sq r1 c1) = true →
        (player_in g g').kings.testBit (sq r2 c2) = true) := by
  have hv := accepted_spec h1 hacc
  obtain ⟨g', e, hb⟩ := move_piece_occupancy g h1 hv
  obtain ⟨h2, hocc, -, -, -⟩ := valid_move_spec_ne_zero hv
  have ho := sq_lt h1
  have hdl := sq_lt h2
  have hpo : (occupancy (cur_player g)).testBit (sq r1 c1) = true :=
    (testBit_occupancy _ _).2 hpiece
  have hnd : ¬ occupiedAt g (sq r2 c2) = true := by rw [hocc]; decide
  rw [occupiedAt_iff] at hnd
  have hpd : (occupancy (cur_player g)).testBit (sq r2 c2) = false := by
    rw [← Bool.not_eq_true]; exact fun h => hnd (Or.inl h)
  have hod : sq r1 c1 ≠ sq r2 c2 := by
    intro e'; rw [e', hpd] at hpo; exact absurd hpo (by decide)
  have heo : ¬ (occupancy (cur_enemy g)).testBit (sq r1 c1) = true := by
    intro he
    have hdis := (disjoint_iff g).1 hd _ ho
    rw [disjointAt_iff] at hdis
    rw [testBit_occupancy] at he
    obtain ⟨d1, d2, d3, d4, d5, d6⟩ := hdis
    unfold cur_player at hpiece
    unfold cur_enemy at he
    split at hpiece
    · rw [if_pos (by assumption)] at he
      rcases hpiece with hp | hp <;> rcases he with he | he
      · exact d2 ⟨he, hp⟩
      · exact d4 ⟨he, hp⟩
      · exact d3 ⟨he, hp⟩
      · exact d5 ⟨he, hp⟩
    · rw [if_neg (by assumption)] at he
      rcases hpiece with hp | hp <;> rcases he with he | he
      · exact d2 ⟨hp, he⟩
      · exact d3 ⟨hp, he⟩
      · exact d4 ⟨hp, he⟩
      · exact d5 ⟨hp, he⟩
  refine ⟨g', e, ?_, ?_, ?_, ?_⟩
  · exact pieceCount_move ho hdl hpo hpd (fun i hi => (hb i hi).1)
  · rw [← Bool.not_eq_true, occupiedAt_iff_in g g', (hb _ ho).1, (hb _ ho).2.1]
    rintro ((⟨-, hne⟩ | heq) | ⟨he, -⟩)
    · exact hne rfl
    · exact hod heq
    · exact heo he
  · exact ((hb _ hdl).1).2 (Or.inr rfl)
  · intro hk
    exact (hb _ hdl).2.2 hk rfl

/-- The opening step 5,0 to 4,1: Red still has twelve pieces afterwards. -/
theorem mover_conserved_witness :
    disjoint initial ∧ onBoard 5 0 ∧ valid_move initial 5 0 4 1 = some 1 ∧
    (cur_player initial).men.testBit (sq 5 0) = true ∧
    pieceCount (occupancy (cur_player initial)) = 12 ∧
    ∃ g', move_piece initial 5 0 4 1 = some (1, g') ∧
      pieceCount (occupancy (player_in initial g')) = pieceCount (occupancy (cur_player initial)) ∧
      occupiedAt g' (sq 5 0) = false ∧
      (occupancy (player_in initial g')).testBit (sq 4 1) = true ∧
      ((cur_player initial).kings.testBit (sq 5 0) = true →
        (player_in initial g').kings.testBit (sq 4 1) = true) :=
  ⟨by decide, by decide, by decide, by decide, by decide,
    mover_conserved initial 5 0 4 1 (by decide) (by decide) (Or.inl (by decide))
      (Or.inl (by decide))⟩

theorem step_or_jump_parity {g : Game} {r1 c1 r2 c2 : Int}
    (hv : valid_move_spec g r1 c1 r2 c2 ≠ 0) :
    (r2 + c2) % 2 = (r1 + c1) % 2 := by
  obtain ⟨-, -, hmt, hstep, hjump⟩ := valid_move_spec_ne_zero hv
  rcases hmt with h | h
  · obtain ⟨a, b, -⟩ := hstep h
    unfold iabs at a b
    split at a <;> split at b <;> omega
  · obtain ⟨a, b, -⟩ := hjump h
    unfold iabs at a b
    split at a <;> split at b <;> omega

/-- Claim C19: when every piece stands on a square with `r + c` odd, and a move
accepted by `valid_move` has its origin on the board holding a piece of the side to
move, `move_piece` succeeds and every piece afterwards again stands on a square with
`r + c` odd. -/
theorem playable_squares_preserved (g : Game) (r1 c1 r2 c2 : Int) (hdark : darkOnly g)
    (h1 : onBoard r1 c1)
    (hacc : valid_move g r1 c1 r2 c2 = some 1 ∨ valid_move g r1 c1 r2 c2 = some 2)
    (hpiece : (cur_player g).men.testBit (sq r1 c1) = true ∨
      (cur_player g).kings.testBit (sq r1 c1) = true) :
    ∃ g', move_piece g r1 c1 r2 c2 = some (1, g') ∧ darkOnly g' := by
  have hv := accepted_spec h1 hacc
  obtain ⟨g', e, hb⟩ := move_piece_occupancy g h1 hv
  obtain ⟨h2, -, -, -, -⟩ := valid_move_spec_ne_zero hv
  have hpar := step_or_jump_parity hv
  have horig : (r1 + c1) % 2 = 1 := by
    have hocc : occupiedAt g (sq r1 c1) = true :=
      (occupiedAt_iff g _).2 (Or.inl ((testBit_occupancy _ _).2 hpiece))
    have hsq : r1.toNat * 8 + c1.toNat = sq r1 c1 := by
      unfold onBoard at h1; unfold sq; omega
    have := hdark r1.toNat (by unfold onBoard at h1; omega) c1.toNat
      (by unfold onBoard at h1; omega) (by rw [hsq]; exact hocc)
    unfold onBoard at h1
    omega
  refine ⟨g', e, ?_⟩
  intro r hr c hc hocc'
  have hi : r * 8 + c < 64 := by omega
  obtain ⟨b1, b2, -⟩ := hb _ hi
  rw [occupiedAt_iff_in g g', b1, b2] at hocc'
  rcases hocc' with (⟨hp, -⟩ | heq) | ⟨he, -⟩
  · exact hdark r hr c hc ((occupiedAt_iff g _).2 (Or.inl hp))
  · have hrc : (r : Int) = r2 ∧ (c : Int) = c2 := by
      unfold sq at heq; unfold onBoard at h2
      clear hb b1 b2 hpar horig hv hacc hpiece e hdark
      omega
    have hpar' : ((r : Int) + (c : Int)) % 2 = 1 := by
      rw [hrc.1, hrc.2, hpar]; exact horig
    clear hb b1 b2 hpar horig hv hacc hpiece e hdark hrc heq
    omega
  · exact hdark r hr c hc ((occupiedAt_iff g _).2 (Or.inr he))

/-- The opening position has all pieces on playable squares, and so has the state
after the step 5,0 to 4,1. -/
theorem playable_squares_preserved_witness :
    darkOnly initial ∧ onBoard 5 0 ∧ valid_move initial 5 0 4 1 = some 1 ∧
    (cur_player initial).men.testBit (sq 5 0) = true ∧
    ∃ g', move_piece initial 5 0 4 1 = some (1, g') ∧ darkOnly g' :=
  ⟨by decide, by decide, by decide, by decide,
    playable_squares_preserved initial 5 0 4 1 (by decide) (by decide) (Or.inl (by decide))
      (Or.inl (by decide))⟩

theorem crown_col_clean (g : Game) {c : Nat} (hc : c < 8)
    (h1 : g.red.men.testBit c = false) (h2 : g.black.men.testBit (56 + c) = false) :
    crown_col g (c : Int) = some g := by
  have hr : onBoard 0 (c : Int) := by unfold onBoard; omega
  have hb : onBoard 7 (c : Int) := by unfold onBoard; omega
  have sr : sq 0 (c : Int) = c := by unfold sq; omega
  have sb : sq 7 (c : Int) = 56 + c := by unfold sq; omega
  simp only [crown_col, crown_red, crown_black, is_bit_set_on _ hr, is_bit_set_on _ hb, sr, sb,
    h1, h2, Bool.false_eq_true, if_false, ne_eq, not_true_eq_false, Option.some_bind]

theorem crown_fold_clean (cs : List Nat) (g : Game)
    (h : ∀ c ∈ cs, c < 8 ∧ g.red.men.testBit c = false ∧ g.black.men.testBit (56 + c) = false) :
    (cs.map Int.ofNat).foldlM crown_col g = some g := by
  induction cs with
  | nil => rfl
  | cons c cs ih =>
    obtain ⟨hc, h1, h2⟩ := h c (List.mem_cons_self c cs)
    simp only [List.map_cons, List.foldlM_cons]
    have e : crown_col g (Int.ofNat c) = some g := crown_col_clean g hc h1 h2
    rw [e]
    exact ih (fun x hx => h x (List.mem_cons_of_mem c hx))

theorem crown_fold_single (cs : List Nat) (g : Game) {k : Nat} (hk : k < 8) (hcs : ∀ c ∈ cs, c < 8)
    (h : ∀ c, c < 8 → c ≠ k →
      g.red.men.testBit c = false ∧ g.black.men.testBit (56 + c) = false) :
    (cs.map Int.ofNat).foldlM crown_col g = if k ∈ cs then crown_col g (k : Int) else some g := by
  induction cs with
  | nil => rfl
  | cons c cs ih =>
    simp only [List.map_cons, List.foldlM_cons]
    by_cases hck : c = k
    · subst hck
      obtain ⟨g', e, -, hb⟩ := crown_col_spec g hk
      have e' : crown_col g (Int.ofNat c) = some g' := e
      rw [e', if_pos (List.mem_cons_self c cs)]
      have e'' : crown_col g (c : Int) = some g' := e
      rw [e'']
      apply crown_fold_clean
      intro x hx
      have hx8 := hcs x (List.mem_cons_of_mem c hx)
      obtain ⟨p1, -, p3, -⟩ := hb x (by omega)
      obtain ⟨q1, -, q3, -⟩ := hb (56 + x) (by omega)
      refine ⟨hx8, ?_, ?_⟩
      · rw [← Bool.not_eq_true, p1]
        rintro ⟨hm, hne⟩
        by_cases hxc : x = c
        · exact hne (by rw [hxc]; exact List.mem_singleton_self c)
        · rw [(h x hx8 hxc).1] at hm; exact absurd hm (by decide)
      · rw [← Bool.not_eq_true, q3]
        rintro ⟨hm, hne⟩
        by_cases hxc : x = c
        · exact hne ⟨c, List.mem_singleton_self c, by rw [hxc]⟩
        · rw [(h x hx8 hxc).2] at hm; exact absurd hm (by decide)
    · have hc8 := hcs c (List.mem_cons_self c cs)
      obtain ⟨h1, h2⟩ := h c hc8 hck
      have e : crown_col g (Int.ofNat c) = some g := crown_col_clean g hc8 h1 h2
      rw [e]
      have := ih (fun x hx => hcs x (List.mem_cons_of_mem c hx))
      show List.foldlM crown_col g (List.map Int.ofNat cs) = _
      rw [this]
      have hmem : k ∈ c :: cs ↔ k ∈ cs := by
        simp only [List.mem_cons]
        exact or_iff_right (fun e => hck e.symm)
      by_cases hkc : k ∈ cs
      · rw [if_pos hkc, if_pos (hmem.2 hkc)]
      · rw [if_neg hkc, if_neg (fun e => hkc (hmem.1 e))]

theorem crown_king_clean (g : Game)
    (h : ∀ c, c < 8 → g.red.men.testBit c = false ∧ g.black.men.testBit (56 + c) = false) :
    crown_king g = some g :=
  crown_fold_clean [0, 1, 2, 3, 4, 5, 6, 7] g
    (fun c hc => by
      have h8 : c < 8 := by
        simp only [List.mem_cons, List.mem_singleton, List.not_mem_nil, or_false] at hc; omega
      exact ⟨h8, h c h8⟩)

theorem crown_king_single (g : Game) {k : Nat} (hk : k < 8)
    (h : ∀ c, c < 8 → c ≠ k →
      g.red.men.testBit c = false ∧ g.black.men.testBit (56 + c) = false) :
    crown_king g = crown_col g (k : Int) := by
  have hmem : k ∈ [0, 1, 2, 3, 4, 5, 6, 7] := by
    simp only [List.mem_cons, List.mem_singleton, List.not_mem_nil, or_false]; omega
  have := crown_fold_single [0, 1, 2, 3, 4, 5, 6, 7] g hk (by decide) h
  rw [if_pos hmem] at this
  exact this

theorem crown_king_eq_promote_moved {g1 : Game} {r2 c2 : Int} (h2 : onBoard r2 c2)
    (F1 : ∀ c : Nat, c < 8 → g1.red.men.testBit c = true →
      g1.turn = 0 ∧ r2 = 0 ∧ (c : Int) = c2)
    (F2 : ∀ c : Nat, c < 8 → g1.black.men.testBit (56 + c) = true →
      g1.turn ≠ 0 ∧ r2 = 7 ∧ (c : Int) = c2) :
    crown_king g1 = promote_moved g1 r2 c2 := by
  have hc2 : 0 ≤ c2 ∧ c2 ≤ 7 := ⟨h2.2.2.1, h2.2.2.2⟩
  have hk8 : c2.toNat < 8 := by omega
  have hkc : ((c2.toNat : Nat) : Int) = c2 := by omega
  by_cases hA : g1.turn = 0 ∧ r2 = 0 ∧ g1.red.men.testBit (sq r2 c2) = true
  · obtain ⟨ht, hr, hm⟩ := hA
    subst hr
    have hclean : ∀ c, c < 8 → c ≠ c2.toNat →
        g1.red.men.testBit c = false ∧ g1.black.men.testBit (56 + c) = false := by
      intro c hc hne
      constructor
      · rw [← Bool.not_eq_true]; intro hb
        have := (F1 c hc hb).2.2; omega
      · rw [← Bool.not_eq_true]; intro hb
        exact (F2 c hc hb).1 ht
    have hbk : g1.black.men.testBit (56 + c2.toNat) = false := by
      rw [← Bool.not_eq_true]; intro hb
      exact (F2 _ hk8 hb).1 ht
    rw [crown_king_single g1 hk8 hclean, hkc]
    have hb7 : onBoard 7 c2 := by unfold onBoard; omega
    have s7 : sq 7 c2 = 56 + c2.toNat := by unfold sq; omega
    simp only [crown_col, crown_red, crown_black, promote_moved, cur_player, cur_enemy,
      put_players, ht, is_bit_set_on _ h2, is_bit_set_on _ hb7, clear_bit_on _ h2,
      set_bit_on _ h2, hm, s7, hbk, if_true, if_false, Option.some_bind, ne_eq, one_ne_zero,
      not_false_eq_true, not_true_eq_false, and_self, Bool.false_eq_true]
  · by_cases hB : g1.turn ≠ 0 ∧ r2 = 7 ∧ g1.black.men.testBit (sq r2 c2) = true
    · obtain ⟨ht, hr, hm⟩ := hB
      subst hr
      have hclean : ∀ c, c < 8 → c ≠ c2.toNat →
          g1.red.men.testBit c = false ∧ g1.black.men.testBit (56 + c) = false := by
        intro c hc hne
        constructor
        · rw [← Bool.not_eq_true]; intro hb
          exact ht (F1 c hc hb).1
        · rw [← Bool.not_eq_true]; intro hb
          have := (F2 c hc hb).2.2; omega
      have hrk : g1.red.men.testBit c2.toNat = false := by
        rw [← Bool.not_eq_true]; intro hb
        exact ht (F1 _ hk8 hb).1
      rw [crown_king_single g1 hk8 hclean, hkc]
      have hb0 : onBoard 0 c2 := by unfold onBoard; omega
      have s0 : sq 0 c2 = c2.toNat := by unfold sq; omega
      simp only [crown_col, crown_red, crown_black, promote_moved, cur_player, cur_enemy,
        put_players, ht, is_bit_set_on _ h2, is_bit_set_on _ hb0, clear_bit_on _ h2,
        set_bit_on _ h2, hm, s0, hrk, if_true, if_false, Option.some_bind, ne_eq, one_ne_zero,
        not_false_eq_true, not_true_eq_false, and_self, Bool.false_eq_true]
    · have hclean : ∀ c, c < 8 →
          g1.red.men.testBit c = false ∧ g1.black.men.testBit (56 + c) = false := by
        intro c hc
        constructor
        · rw [← Bool.not_eq_true]; intro hb
          obtain ⟨a1, a2, a3⟩ := F1 c hc hb
          apply hA
          refine ⟨a1, a2, ?_⟩
          have : sq r2 c2 = c := by unfold sq; omega
          rw [this]; exact hb
        · rw [← Bool.not_eq_true]; intro hb
          obtain ⟨a1, a2, a3⟩ := F2 c hc hb
          apply hB
          refine ⟨a1, a2, ?_⟩
          have : sq r2 c2 = 56 + c := by unfold sq; omega
          rw [this]; exact hb
      rw [crown_king_clean g1 hclean]
      simp only [promote_moved, is_bit_set_on _ h2, Option.some_bind]
      rw [if_neg]
      intro hcond
      obtain ⟨hm, hr⟩ := hcond
      have hm' : (cur_player g1).men.testBit (sq r2 c2) = true := by
        by_contra hne
        simp only [hne, Bool.false_eq_true, if_false, ne_eq, not_true_eq_false] at hm
      by_cases ht : g1.turn = 0
      · simp only [cur_player, ht, ne_eq, not_true_eq_false, if_false] at hm' hr
        exact hA ⟨ht, hr, hm'⟩
      · simp only [cur_player, ht, ne_eq, not_false_eq_true, if_true] at hm' hr
        exact hB ⟨ht, hr, hm'⟩

theorem relocated_back_rows {g g1 : Game} {J : Prop} {o m : Nat} {r2 c2 : Int}
    (h2 : onBoard r2 c2) (hr : relocated g J o (sq r2 c2) m g1)
    (hrow0 : ∀ c, c < 8 → g.red.men.testBit (0 * 8 + c) = false)
    (hrow7 : ∀ c, c < 8 → g.black.men.testBit (7 * 8 + c) = false) :
    (∀ c : Nat, c < 8 → g1.red.men.testBit c = true →
      g1.turn = 0 ∧ r2 = 0 ∧ (c : Int) = c2) ∧
    (∀ c : Nat, c < 8 → g1.black.men.testBit (56 + c) = true →
      g1.turn ≠ 0 ∧ r2 = 7 ∧ (c : Int) = c2) := by
  obtain ⟨t, hb⟩ := hr
  have r0 : ∀ c, c < 8 → g.red.men.testBit c = false := by
    intro c hc; have := hrow0 c hc; rwa [show 0 * 8 + c = c by omega] at this
  have r7 : ∀ c, c < 8 → g.black.men.testBit (56 + c) = false := by
    intro c hc; have := hrow7 c hc; rwa [show 7 * 8 + c = 56 + c by omega] at this
  constructor
  · intro c hc hm
    obtain ⟨p1, -, p3, -⟩ := hb c (by omega)
    by_cases ht : g.turn = 0
    · have ht1 : g1.turn = 0 := t.trans ht
      simp only [cur_player, ht, ht1, ne_eq, not_true_eq_false, if_false] at p1
      rcases p1.1 hm with ⟨hg, -⟩ | ⟨-, hd⟩
      · rw [r0 c hc] at hg; exact absurd hg (by decide)
      · unfold sq at hd; unfold onBoard at h2
        exact ⟨ht1, by omega, by omega⟩
    · have ht1 : ¬ g1.turn = 0 := fun e => ht (t ▸ e)
      simp only [cur_enemy, ht, ht1, ne_eq, not_false_eq_true, if_true] at p3
      have hg := (p3.1 hm).1
      rw [r0 c hc] at hg; exact absurd hg (by decide)
  · intro c hc hm
    obtain ⟨p1, -, p3, -⟩ := hb (56 + c) (by omega)
    by_cases ht : g.turn = 0
    · have ht1 : g1.turn = 0 := t.trans ht
      simp only [cur_enemy, ht, ht1, ne_eq, not_true_eq_false, if_false] at p3
      have hg := (p3.1 hm).1
      rw [r7 c hc] at hg; exact absurd hg (by decide)
    · have ht1 : ¬ g1.turn = 0 := fun e => ht (t ▸ e)
      simp only [cur_player, ht, ht1, ne_eq, not_false_eq_true, if_true] at p1
      rcases p1.1 hm with ⟨hg, -⟩ | ⟨-, hd⟩
      · rw [r7 c hc] at hg; exact absurd hg (by decide)
      · unfold sq at hd; unfold onBoard at h2
        exact ⟨ht1, by omega, by omega⟩

/-- Claim C15: in a state with no Red man on row 0 and no Black man on row 7, for a
move with origin on the board accepted by `valid_move`, `move_piece` (which runs
`crown_king` over all eight columns) yields the same result and state as the same
steps with the scan replaced by the promotion of the moved piece alone, and it
succeeds.  (Disjointness is not needed.) -/
theorem promotion_scan_refines (g : Game) (r1 c1 r2 c2 : Int) (h1 : onBoard r1 c1)
    (hrow0 : ∀ c, c < 8 → g.red.men.testBit (0 * 8 + c) = false)
    (hrow7 : ∀ c, c < 8 → g.black.men.testBit (7 * 8 + c) = false)
    (hacc : valid_move g r1 c1 r2 c2 = some 1 ∨ valid_move g r1 c1 r2 c2 = some 2) :
    move_piece g r1 c1 r2 c2 = move_piece_single g r1 c1 r2 c2 ∧
    ∃ g', move_piece g r1 c1 r2 c2 = some (1, g') := by
  have hv := accepted_spec h1 hacc
  obtain ⟨g1, g2, e1, s1, e2, -, e⟩ := move_piece_spec g h1 hv
  obtain ⟨h2, -, -, -, -⟩ := valid_move_spec_ne_zero hv
  obtain ⟨F1, F2⟩ := relocated_back_rows h2 s1 hrow0 hrow7
  have hp := crown_king_eq_promote_moved h2 F1 F2
  refine ⟨?_, _, e⟩
  rw [e]
  simp only [move_piece_single, valid_move_eq_spec g r2 c2 h1, Option.some_bind, if_neg hv, e1,
    ← hp, e2]

/-- A lone Red man stepping from (1,2) to (0,1): both versions crown it. -/
theorem promotion_scan_refines_witness :
    onBoard 1 2 ∧ valid_move promo_state 1 2 0 1 = some 1 ∧
    move_piece_single promo_state 1 2 0 1 =
      some (1, { red := { men := 0, kings := 2 }, black := { men := 0, kings := 0 }, turn := 1 }) ∧
    move_piece promo_state 1 2 0 1 = move_piece_single promo_state 1 2 0 1 :=
  ⟨by decide, by decide, by decide,
    (promotion_scan_refines promo_state 1 2 0 1 (by decide) (by decide) (by decide)
      (Or.inl (by decide))).1⟩

end Checkers
